import Mathlib

set_option maxHeartbeats 1000000

namespace TorchUCC

/-- Byte values; the source traffics in `uint8_t` vectors.  Byte overflow plays
no role in the protocol, so bytes are plain naturals. -/
abbrev Byte := Nat

/-- Status codes returned by the OOB allgather callbacks in
`torch_ucc_comm.cpp` (the `ucc_status_t` values that actually occur there). -/
inductive ucc_status where
  | UCC_OK
  | UCC_INPROGRESS
  | UCC_ERR_NO_MESSAGE
  deriving DecidableEq

/-- Keys of one rendezvous round.  The source builds them as strings
(`"teamr" + std::to_string(r)`, `"ag_done"`, `"ag_free" + std::to_string(r)`),
each passed through `torch_ucc_oob_coll_info_t::getKey`.  `getKey` is declared
in a header that is not among the source files; the spec names the round's
keys directly as `teamr<rank>`, `ag_done`, `ag_free<rank>`, so no extra prefix
is modelled.  The three string families are pairwise distinct and injective in
the rank, which the inductive constructors capture. -/
inductive Key where
  | team (r : Nat)
  | agDone
  | agFree (r : Nat)
  deriving DecidableEq

/-- A value held by the key-value store: publish keys hold byte vectors
(written by `store->set`), counter keys hold integers (created and bumped by
`store->add`). -/
inductive StoreVal where
  | bytes (bs : List Byte)
  | num (n : Nat)
  deriving DecidableEq

/-- The distributed key-value store (`c10d::Store`).  `ok = false` models a
store whose operations throw (e.g. unreachable server); every store call in
the source sits inside a `try`/`catch` whose catch branch returns
`UCC_ERR_NO_MESSAGE`. -/
structure Store where
  data : Key → Option StoreVal
  ok : Bool

/-- `Store::set`: upsert of a byte vector. -/
def Store.set (s : Store) (k : Key) (v : List Byte) : Store :=
  { s with data := fun k2 => if k2 = k then some (StoreVal.bytes v) else s.data k2 }

/-- `Store::check`: true iff the key currently exists. -/
def Store.check (s : Store) (k : Key) : Bool :=
  (s.data k).isSome

/-- `Store::get`: the byte vector held under a key (callers in the source only
invoke it after `check` succeeded). -/
def Store.get (s : Store) (k : Key) : List Byte :=
  match s.data k with
  | some (StoreVal.bytes bs) => bs
  | _ => []

/-- The post-add value of `Store::add`: the key is created at 0 when absent,
then incremented. -/
def Store.addVal (s : Store) (k : Key) (d : Nat) : Nat :=
  match s.data k with
  | some (StoreVal.num n) => n + d
  | _ => d

/-- `Store::add`: atomic fetch-and-add, returning the post-add value. -/
def Store.add (s : Store) (k : Key) (d : Nat) : Nat × Store :=
  (s.addVal k d,
   { s with data := fun k2 =>
      if k2 = k then some (StoreVal.num (s.addVal k d)) else s.data k2 })

/-- `Store::deleteKey`. -/
def Store.deleteKey (s : Store) (k : Key) : Store :=
  { s with data := fun k2 => if k2 = k then none else s.data k2 }

theorem Store.set_data (s : Store) (k k2 : Key) (v : List Byte) :
    (s.set k v).data k2 = if k2 = k then some (StoreVal.bytes v) else s.data k2 := rfl

theorem Store.deleteKey_data (s : Store) (k k2 : Key) :
    (s.deleteKey k).data k2 = if k2 = k then none else s.data k2 := rfl

theorem Store.add_data (s : Store) (k k2 : Key) (d : Nat) :
    ((s.add k d).2).data k2 =
      if k2 = k then some (StoreVal.num (s.addVal k d)) else s.data k2 := rfl

theorem Store.set_ok (s : Store) (k : Key) (v : List Byte) : (s.set k v).ok = s.ok := rfl

theorem Store.deleteKey_ok (s : Store) (k : Key) : (s.deleteKey k).ok = s.ok := rfl

theorem Store.add_ok (s : Store) (k : Key) (d : Nat) : ((s.add k d).2).ok = s.ok := rfl

/-- `torch_ucc_oob_coll_info_t`, restricted to the fields the three OOB
callbacks read and write: the peer's `rank` and `size`, and the `rbuf`
pointer / `msglen` recorded by `oob_allgather`.  The receive buffer the
`rbuf` pointer designates is modelled by its byte contents. -/
structure OobCollInfo where
  rank : Nat
  size : Nat
  rbuf : List Byte
  msglen : Nat
  deriving DecidableEq

/-- One store operation issued by a callback, for stating how many and which
store calls a callback performs. -/
inductive StoreOp where
  | setOp (k : Key) (v : List Byte)
  | checkOp (k : Key)
  | getOp (k : Key)
  | addOp (k : Key) (d : Nat)
  | delOp (k : Key)
  | waitOp (k : Key)
  deriving DecidableEq

/-- Result of `oob_allgather`: its status, the updated request info, the
updated store, and the store mutations it performed. -/
structure AllgatherResult where
  status : ucc_status
  info : OobCollInfo
  store : Store
  ops : List StoreOp

/-- `oob_allgather` (torch_ucc_comm.cpp:85-107): builds `val` from the first
`msglen` bytes of `sbuf`, publishes it under the peer's own publish key
`teamr<rank>`, records the receive-buffer pointer and message length in the
request info, and returns `UCC_OK`; if the store `set` throws, it returns
`UCC_ERR_NO_MESSAGE` with nothing recorded. -/
def oob_allgather (sbuf rbuf : List Byte) (msglen : Nat)
    (info : OobCollInfo) (store : Store) : AllgatherResult :=
  let val := sbuf.take msglen
  if store.ok then
    { status := ucc_status.UCC_OK
      info := { info with rbuf := rbuf, msglen := msglen }
      store := store.set (Key.team info.rank) val
      ops := [StoreOp.setOp (Key.team info.rank) val] }
  else
    { status := ucc_status.UCC_ERR_NO_MESSAGE
      info := info
      store := store
      ops := [] }

/-- The first loop of `oob_allgather_test` (torch_ucc_comm.cpp:114-118): the
early-return scan is equivalent to checking every publish key `teamr<r>`,
`r < size`. -/
def teamKeysPresent (store : Store) (size : Nat) : Bool :=
  (List.range size).all fun r => store.check (Key.team r)

/-- One `memcpy((void*)((ptrdiff_t)rbuf + msglen * r), data.data(), msglen)`:
overwrite `data` into the buffer at byte offset `off`, keeping the rest.  The
source copies exactly `msglen` bytes; callers pass `data` already truncated to
that length. -/
def writeAt (buf : List Byte) (off : Nat) (data : List Byte) : List Byte :=
  buf.take off ++ data ++ buf.drop (off + data.length)

/-- The second loop of `oob_allgather_test` (torch_ucc_comm.cpp:119-126):
for `r = 0, 1, ..., size-1` in ascending order, read peer `r`'s published
bytes and `memcpy` `msglen` of them into the receive buffer at offset
`msglen * r`. -/
def gatherWrites (store : Store) (info : OobCollInfo) : List Byte :=
  (List.range info.size).foldl
    (fun buf r => writeAt buf (info.msglen * r) ((store.get (Key.team r)).take info.msglen))
    info.rbuf

/-- `oob_allgather_test` (torch_ucc_comm.cpp:109-133): if any publish key is
missing, return `UCC_INPROGRESS` before any write; once all exist, fill the
receive buffer in ascending rank order and return `UCC_OK`; a throwing store
yields `UCC_ERR_NO_MESSAGE`. -/
def oob_allgather_test (info : OobCollInfo) (store : Store) :
    ucc_status × OobCollInfo :=
  if store.ok then
    if teamKeysPresent store info.size then
      (ucc_status.UCC_OK, { info with rbuf := gatherWrites store info })
    else
      (ucc_status.UCC_INPROGRESS, info)
  else
    (ucc_status.UCC_ERR_NO_MESSAGE, info)

/-- The first cleanup loop of `oob_allgather_free` (torch_ucc_comm.cpp:142-144):
delete the publish keys `teamr<r>` for `r = 0, ..., size-1`. -/
def delTeamKeys (store : Store) (size : Nat) : Store :=
  (List.range size).foldl (fun st r => st.deleteKey (Key.team r)) store

/-- The second cleanup loop of `oob_allgather_free` (torch_ucc_comm.cpp:145-147):
`store->add(ag_free<r>, 1)` for every rank, creating the release keys. -/
def addFreeKeys (store : Store) (size : Nat) : Store :=
  (List.range size).foldl (fun st r => (st.add (Key.agFree r) 1).2) store

/-- `oob_allgather_free` (torch_ucc_comm.cpp:135-159), as one peer's sequential
run against a store snapshot: atomically bump `ag_done`; the peer whose
post-add value equals `size` deletes the counter and all publish keys and
creates every release key; every other peer waits for its own release key
(`none` models the `wait` blocking forever when the key is absent and no other
peer acts); finally the peer deletes its own release key. -/
def oob_allgather_free (info : OobCollInfo) (store : Store) :
    Option (ucc_status × Store) :=
  if store.ok then
    let num_done := (store.add Key.agDone 1).1
    let st1 := (store.add Key.agDone 1).2
    if num_done = info.size then
      let st4 := addFreeKeys (delTeamKeys (st1.deleteKey Key.agDone) info.size) info.size
      some (ucc_status.UCC_OK, st4.deleteKey (Key.agFree info.rank))
    else
      if st1.check (Key.agFree info.rank) then
        some (ucc_status.UCC_OK, st1.deleteKey (Key.agFree info.rank))
      else
        none
  else
    some (ucc_status.UCC_ERR_NO_MESSAGE, store)

/-- `ucs_thread_mode_t`: the thread-support level the UCX library reports. -/
inductive ucs_thread_mode where
  | single
  | serialized
  | multi
  deriving DecidableEq

/-- Outcomes of the UCX primitives the `CommUCX` constructor calls, plus the
thread level `ucp_lib_query` reports.  Each flag tells whether the
corresponding call succeeds. -/
structure UcxEnv where
  lib_query_ok : Bool
  max_thread_level : ucs_thread_mode
  config_read_ok : Bool
  init_ok : Bool
  worker_create_ok : Bool

/-- UCX API calls the `CommUCX` constructor (and destructor) can issue, in
the order the constructor makes them.  `workerDestroy` is issued only by the
destructor, never during construction. -/
inductive UcxEv where
  | libQuery
  | configRead
  | ucpInit
  | configRelease
  | workerCreate
  | ucpCleanup
  | workerDestroy
  deriving DecidableEq

/-- `CommUCX::CommUCX` (torch_ucc_comm.cpp:16-63), as the sequence of UCX
calls it issues and whether it completes (`true`) or throws (`false`):
query the lib attributes; require `UCS_THREAD_MODE_MULTI` (`TORCH_CHECK`
throws otherwise, before anything is acquired); read the config; `ucp_init`
the context; release the config; create the worker — and if the worker
creation fails, `ucp_cleanup` the context before throwing. -/
def CommUCX_ctor (env : UcxEnv) : Bool × List UcxEv :=
  if env.lib_query_ok then
    if env.max_thread_level = ucs_thread_mode.multi then
      if env.config_read_ok then
        if env.init_ok then
          if env.worker_create_ok then
            (true, [UcxEv.libQuery, UcxEv.configRead, UcxEv.ucpInit,
              UcxEv.configRelease, UcxEv.workerCreate])
          else
            (false, [UcxEv.libQuery, UcxEv.configRead, UcxEv.ucpInit,
              UcxEv.configRelease, UcxEv.workerCreate, UcxEv.ucpCleanup])
        else (false, [UcxEv.libQuery, UcxEv.configRead, UcxEv.ucpInit])
      else (false, [UcxEv.libQuery, UcxEv.configRead])
    else (false, [UcxEv.libQuery])
  else (false, [UcxEv.libQuery])

/-- Outcomes of the UCC primitives the `CommUCC` constructor calls.
`thread_mode_multi` is whether the initialized library reports
`UCC_THREAD_MULTIPLE` when queried via `ucc_lib_get_attr`. -/
structure UccEnv where
  lib_config_read_ok : Bool
  init_ok : Bool
  get_attr_ok : Bool
  thread_mode_multi : Bool
  ctx_config_read_ok : Bool
  ctx_config_modify_ok : Bool
  ctx_create_ok : Bool

/-- UCC API calls the `CommUCC` constructor (and destructor) can issue.
`ctxDestroy` is issued only by the destructor, never during construction. -/
inductive UccEv where
  | libConfigRead
  | uccInit
  | libConfigRelease
  | libGetAttr
  | ctxConfigRead
  | ctxConfigModify
  | ctxCreate
  | ctxConfigRelease
  | uccFinalize
  | ctxDestroy
  deriving DecidableEq

/-- `CommUCC::CommUCC` (torch_ucc_comm.cpp:161-235), as the sequence of UCC
calls it issues and whether it completes (`true`) or throws (`false`):
read the lib config; `ucc_init` the library handle; release the lib config;
query the lib attributes; `TORCH_CHECK` the thread mode (throwing — without
finalizing the already-initialized library — when it is not
`UCC_THREAD_MULTIPLE`); read the context config (finalizing the library on
failure); modify it (releasing the context config and finalizing the library
on failure); `ucc_context_create` (the context config is always released
right after the call, and on failure the library is finalized before the
throw). -/
def CommUCC_ctor (env : UccEnv) : Bool × List UccEv :=
  if env.lib_config_read_ok then
    if env.init_ok then
      if env.get_attr_ok then
        if env.thread_mode_multi then
          if env.ctx_config_read_ok then
            if env.ctx_config_modify_ok then
              if env.ctx_create_ok then
                (true, [UccEv.libConfigRead, UccEv.uccInit, UccEv.libConfigRelease,
                  UccEv.libGetAttr, UccEv.ctxConfigRead, UccEv.ctxConfigModify,
                  UccEv.ctxCreate, UccEv.ctxConfigRelease])
              else
                (false, [UccEv.libConfigRead, UccEv.uccInit, UccEv.libConfigRelease,
                  UccEv.libGetAttr, UccEv.ctxConfigRead, UccEv.ctxConfigModify,
                  UccEv.ctxCreate, UccEv.ctxConfigRelease, UccEv.uccFinalize])
            else
              (false, [UccEv.libConfigRead, UccEv.uccInit, UccEv.libConfigRelease,
                UccEv.libGetAttr, UccEv.ctxConfigRead, UccEv.ctxConfigModify,
                UccEv.ctxConfigRelease, UccEv.uccFinalize])
          else
            (false, [UccEv.libConfigRead, UccEv.uccInit, UccEv.libConfigRelease,
              UccEv.libGetAttr, UccEv.ctxConfigRead, UccEv.uccFinalize])
        else
          (false, [UccEv.libConfigRead, UccEv.uccInit, UccEv.libConfigRelease,
            UccEv.libGetAttr])
      else
        (false, [UccEv.libConfigRead, UccEv.uccInit, UccEv.libConfigRelease,
          UccEv.libGetAttr])
    else (false, [UccEv.libConfigRead, UccEv.uccInit])
  else (false, [UccEv.libConfigRead])

/-- The byte-concatenation of the blocks `v 0 ++ v 1 ++ ... ++ v (n-1)`,
ordered by ascending rank. -/
def concatBlocks (v : Nat → List Byte) : Nat → List Byte
  | 0 => []
  | n + 1 => concatBlocks v n ++ v n

theorem take_append_self {α : Type} (l1 l2 : List α) : (l1 ++ l2).take l1.length = l1 := by
  induction l1 with
  | nil => simp
  | cons a t ih => simp [ih]

theorem drop_append_add {α : Type} (l1 l2 : List α) (m : Nat) :
    (l1 ++ l2).drop (l1.length + m) = l2.drop m := by
  induction l1 with
  | nil => simp
  | cons a t ih => simp [Nat.succ_add, ih]

theorem concatBlocks_congr (f g : Nat → List Byte) :
    ∀ n, (∀ r, r < n → f r = g r) → concatBlocks f n = concatBlocks g n := by
  intro n
  induction n with
  | zero => intro _; rfl
  | succ m ih =>
    intro h
    rw [concatBlocks, concatBlocks, ih (fun r hr => h r (Nat.lt_succ_of_lt hr)),
      h m (Nat.lt_succ_self m)]

theorem concatBlocks_length (f : Nat → List Byte) (L : Nat) :
    ∀ n, (∀ r, r < n → (f r).length = L) → (concatBlocks f n).length = L * n := by
  intro n
  induction n with
  | zero => intro _; rfl
  | succ m ih =>
    intro h
    rw [concatBlocks, List.length_append, ih (fun r hr => h r (Nat.lt_succ_of_lt hr)),
      h m (Nat.lt_succ_self m), Nat.mul_succ]

/-- The write loop of `oob_allgather_test`, run over blocks of equal length
`L` into a buffer of sufficient length, produces the concatenation of the
blocks in ascending rank order followed by the untouched tail. -/
theorem gather_foldl_eq (L : Nat) (f : Nat → List Byte) :
    ∀ (n : Nat) (buf : List Byte), (∀ r, r < n → (f r).length = L) →
      L * n ≤ buf.length →
      (List.range n).foldl (fun b r => writeAt b (L * r) (f r)) buf =
        concatBlocks f n ++ buf.drop (L * n) := by
  intro n
  induction n with
  | zero => intro buf _ _; simp [concatBlocks]
  | succ m ih =>
    intro buf hlen hbuf
    have hm : L * m ≤ buf.length :=
      le_trans (Nat.mul_le_mul_left L (Nat.le_succ m)) hbuf
    rw [List.range_succ, List.foldl_append, List.foldl_cons, List.foldl_nil,
      ih buf (fun r hr => hlen r (Nat.lt_succ_of_lt hr)) hm, writeAt]
    have hcl : (concatBlocks f m).length = L * m :=
      concatBlocks_length f L m (fun r hr => hlen r (Nat.lt_succ_of_lt hr))
    rw [← hcl, take_append_self, hlen m (Nat.lt_succ_self m), ← hlen m (Nat.lt_succ_self m),
      drop_append_add, List.drop_drop, hlen m (Nat.lt_succ_self m)]
    rw [concatBlocks, Nat.mul_succ, hcl]

/-- C1: once all `size` publish keys exist, `oob_allgather_test` returns
`UCC_OK` and the receive buffer holds, at byte offset `r × msglen` for every
rank `r < size`, peer `r`'s published bytes, read in ascending rank order —
i.e. the buffer equals the byte-concatenation of all peers' published buffers
ordered by ascending rank.  The result depends only on the store contents,
not on this peer's rank or on the order in which the publishes arrived. -/
theorem oob_allgather_test_complete_concat (info : OobCollInfo) (store : Store)
    (v : Nat → List Byte) (hok : store.ok = true)
    (hkeys : ∀ r, r < info.size → store.data (Key.team r) = some (StoreVal.bytes (v r)))
    (hlen : ∀ r, r < info.size → (v r).length = info.msglen)
    (hbuf : info.rbuf.length = info.msglen * info.size) :
    oob_allgather_test info store =
      (ucc_status.UCC_OK, { info with rbuf := concatBlocks v info.size }) := by
  have hpresent : teamKeysPresent store info.size = true := by
    apply List.all_eq_true.mpr
    intro r hr
    rw [Store.check, hkeys r (List.mem_range.mp hr)]
    rfl
  have hget : ∀ r, r < info.size → (store.get (Key.team r)).take info.msglen = v r := by
    intro r hr
    rw [Store.get, hkeys r hr, ← hlen r hr]
    exact List.take_length _
  have hflen : ∀ r, r < info.size →
      ((store.get (Key.team r)).take info.msglen).length = info.msglen := by
    intro r hr
    rw [hget r hr]
    exact hlen r hr
  have hgather : gatherWrites store info = concatBlocks v info.size := by
    rw [gatherWrites, gather_foldl_eq info.msglen _ info.size info.rbuf hflen (le_of_eq hbuf.symm),
      concatBlocks_congr _ v info.size hget, ← hbuf, List.drop_length, List.append_nil]
  simp [oob_allgather_test, hok, hpresent, hgather]

/-- C1 witness: the spec's concrete example — three peers, message length 4;
every peer's receive buffer becomes the concatenation of the three published
blocks in rank order. -/
theorem oob_allgather_test_complete_concat_witness :
    oob_allgather_test ⟨0, 3, [0, 0, 0, 0, 0, 0, 0, 0, 0, 0, 0, 0], 4⟩
        ⟨fun k => if k = Key.team 0 then some (StoreVal.bytes [1, 2, 3, 4])
          else if k = Key.team 1 then some (StoreVal.bytes [5, 6, 7, 8])
          else if k = Key.team 2 then some (StoreVal.bytes [9, 10, 11, 12])
          else none, true⟩ =
      (ucc_status.UCC_OK, ⟨0, 3, [1, 2, 3, 4, 5, 6, 7, 8, 9, 10, 11, 12], 4⟩) :=
  oob_allgather_test_complete_concat ⟨0, 3, [0, 0, 0, 0, 0, 0, 0, 0, 0, 0, 0, 0], 4⟩
    ⟨fun k => if k = Key.team 0 then some (StoreVal.bytes [1, 2, 3, 4])
      else if k = Key.team 1 then some (StoreVal.bytes [5, 6, 7, 8])
      else if k = Key.team 2 then some (StoreVal.bytes [9, 10, 11, 12])
      else none, true⟩
    (fun r => if r = 0 then [1, 2, 3, 4] else if r = 1 then [5, 6, 7, 8] else [9, 10, 11, 12])
    rfl (by decide) (by decide) (by decide)

/-- Helper: when some publish key is absent the early-return scan of
`oob_allgather_test` fires, so the call returns `UCC_INPROGRESS` with the
request info (receive buffer included) untouched. -/
theorem test_missing_key_aux (info : OobCollInfo) (store : Store)
    (hok : store.ok = true)
    (h : ∃ r, r < info.size ∧ store.data (Key.team r) = none) :
    oob_allgather_test info store = (ucc_status.UCC_INPROGRESS, info) := by
  obtain ⟨r, hr, hnone⟩ := h
  have hfalse : teamKeysPresent store info.size = false := by
    cases hb : teamKeysPresent store info.size with
    | false => rfl
    | true =>
      exfalso
      have hmem := List.all_eq_true.mp hb r (List.mem_range.mpr hr)
      rw [Store.check, hnone] at hmem
      exact absurd hmem (by simp)
  simp [oob_allgather_test, hok, hfalse]

/-- C4: every call to `oob_allgather_test` made while at least one of the
`size` publish keys does not yet exist returns `UCC_INPROGRESS` and leaves
the request — in particular its receive buffer — byte-for-byte unchanged.
The callback is a pure function of the store snapshot, so repeating the call
gives the same result: such calls are idempotent and never partially fill the
receive buffer. -/
theorem oob_allgather_test_in_progress_no_effect (info : OobCollInfo) (store : Store)
    (hok : store.ok = true)
    (h : ∃ r, r < info.size ∧ store.data (Key.team r) = none) :
    oob_allgather_test info store = (ucc_status.UCC_INPROGRESS, info) :=
  test_missing_key_aux info store hok h

/-- C4 witness: two peers, only peer 0 has published; the poll reports
in-progress and returns the request unchanged. -/
theorem oob_allgather_test_in_progress_no_effect_witness :
    oob_allgather_test ⟨0, 2, [0, 0], 1⟩
        ⟨fun k => if k = Key.team 0 then some (StoreVal.bytes [7]) else none, true⟩ =
      (ucc_status.UCC_INPROGRESS, ⟨0, 2, [0, 0], 1⟩) :=
  oob_allgather_test_in_progress_no_effect ⟨0, 2, [0, 0], 1⟩
    ⟨fun k => if k = Key.team 0 then some (StoreVal.bytes [7]) else none, true⟩
    rfl ⟨1, by decide, by decide⟩

/-- C5 counterexample: a successful `oob_allgather` does not allocate a
receive buffer of size `sendLen × size`; it records the caller-supplied
buffer pointer unchanged (`info->rbuf = rbuf`).  Here the caller passes an
empty buffer with `msglen = 2` and `size = 3`: the initiate succeeds, yet the
recorded receive buffer has length `0`, not `2 × 3`. -/
theorem oob_allgather_no_allocation_counterexample :
    (oob_allgather [1, 2] [] 2 ⟨0, 3, [], 0⟩ ⟨fun _ => none, true⟩).status =
        ucc_status.UCC_OK ∧
    (oob_allgather [1, 2] [] 2 ⟨0, 3, [], 0⟩ ⟨fun _ => none, true⟩).info.rbuf.length = 0 ∧
    (0 : Nat) ≠ 2 * 3 :=
  ⟨rfl, rfl, by decide⟩

/-- C5 (amended): `oob_allgather` performs exactly one store mutation — a
single `set` publishing the first `msglen` bytes of `sbuf` under the peer's
own publish key `teamr<rank>` — and records the caller-provided receive
buffer and message length in the request info (it does not allocate the
receive buffer; the caller owns it).  If the store `set` throws, it returns
`UCC_ERR_NO_MESSAGE` with the request info, the store and the op list
untouched. -/
theorem oob_allgather_characterization (sbuf rbuf : List Byte) (msglen : Nat)
    (info : OobCollInfo) (store : Store) :
    (store.ok = true →
      (oob_allgather sbuf rbuf msglen info store).status = ucc_status.UCC_OK ∧
      (oob_allgather sbuf rbuf msglen info store).ops =
        [StoreOp.setOp (Key.team info.rank) (sbuf.take msglen)] ∧
      (oob_allgather sbuf rbuf msglen info store).store.data (Key.team info.rank) =
        some (StoreVal.bytes (sbuf.take msglen)) ∧
      (∀ k, k ≠ Key.team info.rank →
        (oob_allgather sbuf rbuf msglen info store).store.data k = store.data k) ∧
      (oob_allgather sbuf rbuf msglen info store).info.rbuf = rbuf ∧
      (oob_allgather sbuf rbuf msglen info store).info.msglen = msglen ∧
      (oob_allgather sbuf rbuf msglen info store).info.rank = info.rank ∧
      (oob_allgather sbuf rbuf msglen info store).info.size = info.size) ∧
    (store.ok = false →
      (oob_allgather sbuf rbuf msglen info store).status = ucc_status.UCC_ERR_NO_MESSAGE ∧
      (oob_allgather sbuf rbuf msglen info store).info = info ∧
      (oob_allgather sbuf rbuf msglen info store).store = store ∧
      (oob_allgather sbuf rbuf msglen info store).ops = []) := by
  constructor
  · intro h
    refine ⟨by simp [oob_allgather, h], by simp [oob_allgather, h], ?_, ?_, ?_, ?_, ?_, ?_⟩
    · simp [oob_allgather, h, Store.set]
    · intro k hk
      simp [oob_allgather, h, Store.set, hk]
    · simp [oob_allgather, h]
    · simp [oob_allgather, h]
    · simp [oob_allgather, h]
    · simp [oob_allgather, h]
  · intro h
    exact ⟨by simp [oob_allgather, h], by simp [oob_allgather, h],
      by simp [oob_allgather, h], by simp [oob_allgather, h]⟩

/-- C5 witness: the amended claim evaluated at concrete inputs, one with a
healthy store and one with a throwing store. -/
theorem oob_allgather_characterization_witness :
    (oob_allgather [5] [9] 1 ⟨1, 2, [], 0⟩ ⟨fun _ => none, true⟩).status =
        ucc_status.UCC_OK ∧
    (oob_allgather [5] [9] 1 ⟨1, 2, [], 0⟩ ⟨fun _ => none, false⟩).status =
        ucc_status.UCC_ERR_NO_MESSAGE :=
  ⟨((oob_allgather_characterization [5] [9] 1 ⟨1, 2, [], 0⟩ ⟨fun _ => none, true⟩).1 rfl).1,
   ((oob_allgather_characterization [5] [9] 1 ⟨1, 2, [], 0⟩ ⟨fun _ => none, false⟩).2 rfl).1⟩

/-- C8 counterexample: there is no rejection of calls made after a failed
initiate.  With rank 0 and size 1 the initiate fails on a throwing store, yet
a subsequent `oob_allgather_free` on a healthy store runs the whole cleanup
barrier and returns `UCC_OK` — not any error status. -/
theorem free_after_failed_initiate_counterexample :
    (oob_allgather [1] [] 1 ⟨0, 1, [], 0⟩ ⟨fun _ => none, false⟩).status =
        ucc_status.UCC_ERR_NO_MESSAGE ∧
    (oob_allgather_free ⟨0, 1, [], 0⟩ ⟨fun _ => none, true⟩).map Prod.fst =
        some ucc_status.UCC_OK :=
  ⟨rfl, rfl⟩

/-- C8 (amended): a failed initiate returns `UCC_ERR_NO_MESSAGE` and leaves
the request info untouched; the code records no error state and does not
reject later calls on the same request: on a healthy store,
`oob_allgather_test` simply polls the publish keys (returning
`UCC_INPROGRESS` while the peer's own key is absent) and a completing
`oob_allgather_free` runs the barrier and returns `UCC_OK`. -/
theorem failed_initiate_no_rejection (sbuf rbuf : List Byte) (msglen : Nat)
    (info : OobCollInfo) (badStore goodStore : Store)
    (hbad : badStore.ok = false) (hgood : goodStore.ok = true)
    (hrank : info.rank < info.size)
    (hown : goodStore.data (Key.team info.rank) = none) :
    (oob_allgather sbuf rbuf msglen info badStore).status = ucc_status.UCC_ERR_NO_MESSAGE ∧
    (oob_allgather sbuf rbuf msglen info badStore).info = info ∧
    oob_allgather_test info goodStore = (ucc_status.UCC_INPROGRESS, info) ∧
    (∀ res, oob_allgather_free info goodStore = some res → res.1 = ucc_status.UCC_OK) := by
  refine ⟨by simp [oob_allgather, hbad], by simp [oob_allgather, hbad],
    test_missing_key_aux info goodStore hgood ⟨info.rank, hrank, hown⟩, ?_⟩
  intro res h
  rw [oob_allgather_free] at h
  simp only [hgood, if_true] at h
  split at h
  · injection h with h2
    rw [← h2]
  · split at h
    · injection h with h2
      rw [← h2]
    · exact absurd h (by simp)

/-- C8 witness: the amended claim at concrete inputs. -/
theorem failed_initiate_no_rejection_witness :
    oob_allgather_test ⟨0, 1, [], 0⟩ ⟨fun _ => none, true⟩ =
      (ucc_status.UCC_INPROGRESS, ⟨0, 1, [], 0⟩) :=
  (failed_initiate_no_rejection [1] [] 1 ⟨0, 1, [], 0⟩ ⟨fun _ => none, false⟩
    ⟨fun _ => none, true⟩ rfl rfl (by decide) rfl).2.2.1

theorem delTeamKeys_succ (st : Store) (m : Nat) :
    delTeamKeys st (m + 1) = (delTeamKeys st m).deleteKey (Key.team m) := by
  rw [delTeamKeys, delTeamKeys, List.range_succ, List.foldl_append, List.foldl_cons,
    List.foldl_nil]

theorem addFreeKeys_succ (st : Store) (m : Nat) :
    addFreeKeys st (m + 1) = ((addFreeKeys st m).add (Key.agFree m) 1).2 := by
  rw [addFreeKeys, addFreeKeys, List.range_succ, List.foldl_append, List.foldl_cons,
    List.foldl_nil]

theorem delTeamKeys_data_team (st : Store) :
    ∀ size r, r < size → (delTeamKeys st size).data (Key.team r) = none := by
  intro size
  induction size with
  | zero => intro r hr; exact absurd hr (Nat.not_lt_zero r)
  | succ m ih =>
    intro r hr
    rw [delTeamKeys_succ, Store.deleteKey_data]
    rcases Nat.lt_succ_iff_lt_or_eq.mp hr with h | h
    · have hne : Key.team r ≠ Key.team m := by
        simp only [ne_eq, Key.team.injEq]
        omega
      rw [if_neg hne]
      exact ih r h
    · subst h
      simp

theorem delTeamKeys_data_other (st : Store) (k : Key) (hk : ∀ r, k ≠ Key.team r) :
    ∀ size, (delTeamKeys st size).data k = st.data k := by
  intro size
  induction size with
  | zero => rfl
  | succ m ih =>
    rw [delTeamKeys_succ, Store.deleteKey_data, if_neg (hk m), ih]

theorem delTeamKeys_ok (st : Store) : ∀ size, (delTeamKeys st size).ok = st.ok := by
  intro size
  induction size with
  | zero => rfl
  | succ m ih => rw [delTeamKeys_succ, Store.deleteKey_ok, ih]

theorem addFreeKeys_data_other (st : Store) (k : Key) (hk : ∀ r, k ≠ Key.agFree r) :
    ∀ size, (addFreeKeys st size).data k = st.data k := by
  intro size
  induction size with
  | zero => rfl
  | succ m ih =>
    rw [addFreeKeys_succ, Store.add_data, if_neg (hk m), ih]

theorem addFreeKeys_data_free (st : Store) :
    ∀ size r, r < size → ∃ m, (addFreeKeys st size).data (Key.agFree r) = some (StoreVal.num m) := by
  intro size
  induction size with
  | zero => intro r hr; exact absurd hr (Nat.not_lt_zero r)
  | succ m ih =>
    intro r hr
    rw [addFreeKeys_succ, Store.add_data]
    rcases Nat.lt_succ_iff_lt_or_eq.mp hr with h | h
    · have hne : Key.agFree r ≠ Key.agFree m := by
        simp only [ne_eq, Key.agFree.injEq]
        omega
      rw [if_neg hne]
      exact ih r h
    · subst h
      simp

/-- C2: `oob_allgather_free` first bumps the shared counter `ag_done`; when
the post-add value `n` equals `size` (this peer is the last to arrive) it
deletes the counter key and all `size` publish keys and creates a release key
for every rank, finally deleting its own release key; when `n < size` it
blocks until its own release key exists (modelled by `none` on a snapshot in
which the key is absent) and, once it exists, deletes it before returning.
In every completing case the peer's own release key is absent from the final
store. -/
theorem oob_allgather_free_characterization (info : OobCollInfo) (store : Store)
    (hok : store.ok = true) :
    (store.addVal Key.agDone 1 = info.size →
      ∃ st, oob_allgather_free info store = some (ucc_status.UCC_OK, st) ∧
        st.data Key.agDone = none ∧
        (∀ r, r < info.size → st.data (Key.team r) = none) ∧
        (∀ r, r < info.size → r ≠ info.rank → (st.data (Key.agFree r)).isSome = true) ∧
        st.data (Key.agFree info.rank) = none) ∧
    (store.addVal Key.agDone 1 ≠ info.size →
      (store.data (Key.agFree info.rank) = none → oob_allgather_free info store = none) ∧
      ((store.data (Key.agFree info.rank)).isSome = true →
        ∃ st, oob_allgather_free info store = some (ucc_status.UCC_OK, st) ∧
          st.data (Key.agFree info.rank) = none ∧
          st.data Key.agDone = some (StoreVal.num (store.addVal Key.agDone 1)) ∧
          (∀ r, st.data (Key.team r) = store.data (Key.team r)))) := by
  have hst1 : ((store.add Key.agDone 1).2).data (Key.agFree info.rank) =
      store.data (Key.agFree info.rank) := by
    rw [Store.add_data, if_neg (by simp)]
  constructor
  · intro h
    refine ⟨(addFreeKeys (delTeamKeys (((store.add Key.agDone 1).2).deleteKey Key.agDone)
        info.size) info.size).deleteKey (Key.agFree info.rank), ?_, ?_, ?_, ?_, ?_⟩
    · simp only [oob_allgather_free, hok, if_true]
      rw [if_pos (show (store.add Key.agDone 1).1 = info.size from h)]
    · rw [Store.deleteKey_data, if_neg (by simp),
        addFreeKeys_data_other _ _ (by intro r; simp),
        delTeamKeys_data_other _ _ (by intro r; simp), Store.deleteKey_data, if_pos rfl]
    · intro r hr
      rw [Store.deleteKey_data, if_neg (by simp),
        addFreeKeys_data_other _ _ (by intro r2; simp),
        delTeamKeys_data_team _ _ _ hr]
    · intro r hr hne
      obtain ⟨m, hm⟩ := addFreeKeys_data_free
        (delTeamKeys (((store.add Key.agDone 1).2).deleteKey Key.agDone) info.size)
        info.size r hr
      rw [Store.deleteKey_data,
        if_neg (by simp only [ne_eq, Key.agFree.injEq]; exact hne)]
      rw [hm]
      rfl
    · rw [Store.deleteKey_data, if_pos rfl]
  · intro h
    constructor
    · intro habs
      simp only [oob_allgather_free, hok, if_true]
      rw [if_neg (show ¬ (store.add Key.agDone 1).1 = info.size from h),
        if_neg (by rw [Store.check, hst1, habs]; simp)]
    · intro hpres
      refine ⟨((store.add Key.agDone 1).2).deleteKey (Key.agFree info.rank), ?_, ?_, ?_, ?_⟩
      · simp only [oob_allgather_free, hok, if_true]
        rw [if_neg (show ¬ (store.add Key.agDone 1).1 = info.size from h),
          if_pos (by rw [Store.check, hst1]; exact hpres)]
      · rw [Store.deleteKey_data, if_pos rfl]
      · rw [Store.deleteKey_data, if_neg (by simp), Store.add_data, if_pos rfl]
      · intro r
        rw [Store.deleteKey_data, if_neg (by simp), Store.add_data, if_neg (by simp)]

/-- C2 witness: one peer, empty healthy store — the peer is last (post-add
value 1 equals size 1), so it cleans up the whole namespace and deletes its
own release key. -/
theorem oob_allgather_free_characterization_witness :
    ∃ st, oob_allgather_free ⟨0, 1, [], 0⟩ ⟨fun _ => none, true⟩ =
        some (ucc_status.UCC_OK, st) ∧
      st.data Key.agDone = none ∧
      (∀ r, r < 1 → st.data (Key.team r) = none) ∧
      (∀ r, r < 1 → r ≠ 0 → (st.data (Key.agFree r)).isSome = true) ∧
      st.data (Key.agFree 0) = none :=
  (oob_allgather_free_characterization ⟨0, 1, [], 0⟩ ⟨fun _ => none, true⟩ rfl).1 (by decide)

/-- C6 counterexample: with a UCC library whose initialized handle reports a
non-multithreaded mode, the `CommUCC` constructor throws, but only after
`ucc_init` has acquired the library handle, and it never issues
`ucc_finalize` — so the failure does not leave zero acquired resources. -/
theorem commUCC_thread_check_leak_counterexample :
    (CommUCC_ctor ⟨true, true, true, false, true, true, true⟩).1 = false ∧
    UccEv.uccInit ∈ (CommUCC_ctor ⟨true, true, true, false, true, true, true⟩).2 ∧
    UccEv.uccFinalize ∉ (CommUCC_ctor ⟨true, true, true, false, true, true, true⟩).2 := by
  decide

/-- C6 (amended): when the communication library reports single-threaded-only
capability, `CommUCX` fails with no resources acquired and no teardown call
issued (its capability query precedes every acquisition), while `CommUCC`
necessarily initializes the library handle first — the thread-mode attribute
is queried on the initialized handle — and its failing check throws without
finalizing that handle: no teardown call is issued, but one acquired resource
(the library handle) remains. -/
theorem single_thread_capability_failure (envx : UcxEnv) (envc : UccEnv)
    (hx1 : envx.lib_query_ok = true) (hx2 : envx.max_thread_level ≠ ucs_thread_mode.multi)
    (hc1 : envc.lib_config_read_ok = true) (hc2 : envc.init_ok = true)
    (hc3 : envc.get_attr_ok = true) (hc4 : envc.thread_mode_multi = false) :
    (CommUCX_ctor envx).1 = false ∧
    (CommUCX_ctor envx).2 = [UcxEv.libQuery] ∧
    (CommUCC_ctor envc).1 = false ∧
    (CommUCC_ctor envc).2.count UccEv.uccInit = 1 ∧
    (CommUCC_ctor envc).2.count UccEv.uccFinalize = 0 := by
  have ex : CommUCX_ctor envx = (false, [UcxEv.libQuery]) := by
    simp [CommUCX_ctor, hx1, hx2]
  have ec : CommUCC_ctor envc =
      (false, [UccEv.libConfigRead, UccEv.uccInit, UccEv.libConfigRelease,
        UccEv.libGetAttr]) := by
    simp [CommUCC_ctor, hc1, hc2, hc3, hc4]
  rw [ex, ec]
  refine ⟨rfl, rfl, rfl, by decide, by decide⟩

/-- C6 witness: the amended claim at concrete environments. -/
theorem single_thread_capability_failure_witness :
    (CommUCX_ctor ⟨true, ucs_thread_mode.single, true, true, true⟩).1 = false ∧
    (CommUCC_ctor ⟨true, true, true, false, true, true, true⟩).1 = false :=
  ⟨(single_thread_capability_failure ⟨true, ucs_thread_mode.single, true, true, true⟩
      ⟨true, true, true, false, true, true, true⟩ rfl (by decide) rfl rfl rfl rfl).1,
   (single_thread_capability_failure ⟨true, ucs_thread_mode.single, true, true, true⟩
      ⟨true, true, true, false, true, true, true⟩ rfl (by decide) rfl rfl rfl rfl).2.2.1⟩

/-- C7: when a later construction step fails after an earlier resource was
acquired, that resource is released exactly once before the error is thrown,
and the resource whose own creation failed is not released.  In `CommUCX` the
failing step is `ucp_worker_create` and the previously acquired resource is
the UCP context from `ucp_init`: the trace ends with a single `ucp_cleanup`
and never calls `ucp_worker_destroy`.  In `CommUCC` the failing step is
`ucc_context_create` and the previously acquired resource is the library
handle from `ucc_init`: the trace ends with a single `ucc_finalize` and never
calls `ucc_context_destroy`.  At each failure point exactly one long-lived
resource has been acquired, so releasing it once, last, is the reverse of the
acquisition order. -/
theorem ctor_failure_releases_prior_resources (envx : UcxEnv) (envc : UccEnv)
    (hx1 : envx.lib_query_ok = true) (hx2 : envx.max_thread_level = ucs_thread_mode.multi)
    (hx3 : envx.config_read_ok = true) (hx4 : envx.init_ok = true)
    (hx5 : envx.worker_create_ok = false)
    (hc1 : envc.lib_config_read_ok = true) (hc2 : envc.init_ok = true)
    (hc3 : envc.get_attr_ok = true) (hc4 : envc.thread_mode_multi = true)
    (hc5 : envc.ctx_config_read_ok = true) (hc6 : envc.ctx_config_modify_ok = true)
    (hc7 : envc.ctx_create_ok = false) :
    (CommUCX_ctor envx).1 = false ∧
    (∃ tr, (CommUCX_ctor envx).2 = tr ++ [UcxEv.ucpCleanup] ∧
      UcxEv.ucpInit ∈ tr ∧ UcxEv.ucpCleanup ∉ tr) ∧
    UcxEv.workerDestroy ∉ (CommUCX_ctor envx).2 ∧
    (CommUCC_ctor envc).1 = false ∧
    (∃ tr, (CommUCC_ctor envc).2 = tr ++ [UccEv.uccFinalize] ∧
      UccEv.uccInit ∈ tr ∧ UccEv.uccFinalize ∉ tr) ∧
    UccEv.ctxDestroy ∉ (CommUCC_ctor envc).2 := by
  have ex : CommUCX_ctor envx =
      (false, [UcxEv.libQuery, UcxEv.configRead, UcxEv.ucpInit,
        UcxEv.configRelease, UcxEv.workerCreate, UcxEv.ucpCleanup]) := by
    simp [CommUCX_ctor, hx1, hx2, hx3, hx4, hx5]
  have ec : CommUCC_ctor envc =
      (false, [UccEv.libConfigRead, UccEv.uccInit, UccEv.libConfigRelease,
        UccEv.libGetAttr, UccEv.ctxConfigRead, UccEv.ctxConfigModify,
        UccEv.ctxCreate, UccEv.ctxConfigRelease, UccEv.uccFinalize]) := by
    simp [CommUCC_ctor, hc1, hc2, hc3, hc4, hc5, hc6, hc7]
  rw [ex, ec]
  refine ⟨rfl,
    ⟨[UcxEv.libQuery, UcxEv.configRead, UcxEv.ucpInit, UcxEv.configRelease,
      UcxEv.workerCreate], rfl, by decide, by decide⟩,
    by decide, rfl,
    ⟨[UccEv.libConfigRead, UccEv.uccInit, UccEv.libConfigRelease, UccEv.libGetAttr,
      UccEv.ctxConfigRead, UccEv.ctxConfigModify, UccEv.ctxCreate,
      UccEv.ctxConfigRelease], rfl, by decide, by decide⟩,
    by decide⟩

/-- C7 witness: the theorem at concrete environments in which only the
worker-creation (UCX) and context-creation (UCC) steps fail. -/
theorem ctor_failure_releases_prior_resources_witness :
    (CommUCX_ctor ⟨true, ucs_thread_mode.multi, true, true, false⟩).1 = false ∧
    (CommUCC_ctor ⟨true, true, true, true, true, true, false⟩).1 = false :=
  ⟨(ctor_failure_releases_prior_resources ⟨true, ucs_thread_mode.multi, true, true, false⟩
      ⟨true, true, true, true, true, true, false⟩
      rfl rfl rfl rfl rfl rfl rfl rfl rfl rfl rfl rfl).1,
   (ctor_failure_releases_prior_resources ⟨true, ucs_thread_mode.multi, true, true, false⟩
      ⟨true, true, true, true, true, true, false⟩
      rfl rfl rfl rfl rfl rfl rfl rfl rfl rfl rfl rfl).2.2.2.1⟩

/-- One emitted trace record (`cur_trace_` in
`CommTraceLogger::recordComms`, torch_ucc_tracing.cpp:100-183), with the
conditionally appended field groups as options: the `in_msg_size` /
`out_msg_size` group (appended when a message size is positive; its `dtype` /
`devType` strings are opaque and omitted), the `root` field (appended when
the pending root is not -1), and the `in_split` / `out_split` group (appended
when either pending split list is non-empty). -/
structure TraceEntry where
  startTime_ns : Int
  comms : String
  req : Nat
  seqnum : Nat
  world_size : Nat
  msgSizes : Option (Nat × Nat)
  root : Option Int
  splits : Option (List Int × List Int)
  deriving DecidableEq

/-- `CommTraceLogger` state: the pending optional fields (`curRoot_`,
`curInSplitSizes_`, `curOutSplitSizes_`, `curBlocks_`), the process-wide
sequence number, the function-local static `startTS` of `recordComms`
(`none` before the first call), and the accumulated `comms_trace_`. -/
structure CommTraceLogger where
  curBlocks : List String
  curRoot : Int
  curInSplitSizes : List Int
  curOutSplitSizes : List Int
  seqnum : Nat
  startTS : Option Int
  comms_trace : List TraceEntry

/-- Initial logger state.  The field initializers (`curRoot_ = -1`, `seqnum`
starting at 0) live in the header, which is not among the source files; the
spec fixes the sequence counter at zero at process start, and `recordComms`
itself resets `curRoot_` to -1, the value meaning "no root pending". -/
def CommTraceLogger.init : CommTraceLogger :=
  { curBlocks := [], curRoot := -1, curInSplitSizes := [], curOutSplitSizes := []
    seqnum := 0, startTS := none, comms_trace := [] }

/-- `CommTraceLogger::recordOptionalInfo(int root)`
(torch_ucc_tracing.cpp:89-91). -/
def recordOptionalInfoRoot (s : CommTraceLogger) (root : Int) : CommTraceLogger :=
  { s with curRoot := root }

/-- `CommTraceLogger::recordOptionalInfo(outputSplitSizes, inputSplitSizes)`
(torch_ucc_tracing.cpp:93-98). -/
def recordOptionalInfoSplits (s : CommTraceLogger)
    (outputSplitSizes inputSplitSizes : List Int) : CommTraceLogger :=
  { s with curOutSplitSizes := outputSplitSizes, curInSplitSizes := inputSplitSizes }

/-- Arguments of one `recordComms` call: operation name, request id, world
size, the first input/output tensor element counts (0 when the tensor lists
are empty), and the wall-clock time of the call in nanoseconds since process
start (`std::chrono::system_clock::now()`). -/
structure CommCall where
  commName : String
  workReq : Nat
  world_size : Nat
  inSize : Nat
  outSize : Nat
  now : Int

/-- The record one `recordComms` call emits from logger state `s`: the
`static` local `startTS` means the time base is `s.startTS` when already
initialized and `c.now` (this very call) otherwise. -/
def mkEntry (s : CommTraceLogger) (c : CommCall) : TraceEntry :=
  { startTime_ns := c.now - s.startTS.getD c.now
    comms := c.commName
    req := c.workReq
    seqnum := s.seqnum
    world_size := c.world_size
    msgSizes := if c.inSize > 0 ∨ c.outSize > 0 then some (c.inSize, c.outSize) else none
    root := if s.curRoot ≠ -1 then some s.curRoot else none
    splits :=
      if s.curInSplitSizes.length > 0 ∨ s.curOutSplitSizes.length > 0 then
        some (s.curInSplitSizes, s.curOutSplitSizes)
      else none }

/-- `CommTraceLogger::recordComms` (torch_ucc_tracing.cpp:100-183): emit one
record, bump the sequence number, latch the static `startTS` at the first
call, and reset the optional fields — `curRoot_ = -1`, both split lists
empty. -/
def recordComms (s : CommTraceLogger) (c : CommCall) : CommTraceLogger :=
  { s with
    seqnum := s.seqnum + 1
    startTS := some (s.startTS.getD c.now)
    comms_trace := s.comms_trace ++ [mkEntry s c]
    curRoot := -1
    curInSplitSizes := []
    curOutSplitSizes := [] }

/-- A sequence of `recordComms` calls with no intervening
`recordOptionalInfo`. -/
def runComms (s : CommTraceLogger) (calls : List CommCall) : CommTraceLogger :=
  calls.foldl recordComms s

/-- C9 counterexample: times are nanoseconds since process start and the
first `recordComms` call happens at 100 ns.  The function-local static
`startTS` is initialized at that first call, so the emitted record carries
`startTime_ns = 0` — not the 100 ns elapsed since process start. -/
theorem recordComms_startTime_counterexample :
    (recordComms CommTraceLogger.init ⟨"allreduce", 0, 2, 0, 0, 100⟩).comms_trace.map
        TraceEntry.startTime_ns = [0] ∧ (0 : Int) ≠ 100 :=
  ⟨rfl, by decide⟩

/-- C9 (amended): `startTime_ns` equals the nanoseconds elapsed since the
first `recordComms` invocation of the process, not since process start: the
static `startTS` latches `now` at the first call (so the first record carries
0), and every later record carries `now - startTS`. -/
theorem recordComms_startTime_since_first_call (s : CommTraceLogger) (c : CommCall) :
    (s.startTS = none →
      (recordComms s c).comms_trace.map TraceEntry.startTime_ns =
        s.comms_trace.map TraceEntry.startTime_ns ++ [0] ∧
      (recordComms s c).startTS = some c.now) ∧
    (∀ t0, s.startTS = some t0 →
      (recordComms s c).comms_trace.map TraceEntry.startTime_ns =
        s.comms_trace.map TraceEntry.startTime_ns ++ [c.now - t0] ∧
      (recordComms s c).startTS = some t0) := by
  constructor
  · intro h
    constructor
    · simp [recordComms, mkEntry, h]
    · simp [recordComms, h]
  · intro t0 h
    constructor
    · simp [recordComms, mkEntry, h]
    · simp [recordComms, h]

/-- C9 witness: the amended claim at concrete calls — the first call (at
100 ns) records 0 and latches 100; a state latched at 100 records 150 for a
call at 250 ns. -/
theorem recordComms_startTime_since_first_call_witness :
    (recordComms CommTraceLogger.init ⟨"op", 0, 1, 0, 0, 100⟩).startTS = some 100 ∧
    (recordComms ⟨[], -1, [], [], 1, some 100, []⟩ ⟨"op", 1, 1, 0, 0, 250⟩).comms_trace.map
        TraceEntry.startTime_ns = [150] :=
  ⟨((recordComms_startTime_since_first_call CommTraceLogger.init
      ⟨"op", 0, 1, 0, 0, 100⟩).1 rfl).2,
   ((recordComms_startTime_since_first_call ⟨[], -1, [], [], 1, some 100, []⟩
      ⟨"op", 1, 1, 0, 0, 250⟩).2 100 rfl).1⟩

/-- Helper: from a logger state whose optional fields are reset, any run of
`recordComms` calls only appends records carrying no root and no split
fields. -/
theorem runComms_tail_no_optional :
    ∀ (calls : List CommCall) (s : CommTraceLogger),
      s.curRoot = -1 → s.curInSplitSizes = [] → s.curOutSplitSizes = [] →
      ∃ tail, (runComms s calls).comms_trace = s.comms_trace ++ tail ∧
        ∀ e, e ∈ tail → e.root = none ∧ e.splits = none := by
  intro calls
  induction calls with
  | nil => intro s _ _ _; exact ⟨[], by simp [runComms], by simp⟩
  | cons c rest ih =>
    intro s h1 h2 h3
    obtain ⟨tail, htr, hgood⟩ := ih (recordComms s c) rfl rfl rfl
    refine ⟨mkEntry s c :: tail, ?_, ?_⟩
    · have hrun : runComms s (c :: rest) = runComms (recordComms s c) rest := rfl
      rw [hrun, htr]
      simp [recordComms]
    · intro e he
      rcases List.mem_cons.mp he with h | h
      · subst h
        constructor
        · rw [mkEntry]
          simp [h1]
        · rw [mkEntry]
          simp [h2, h3]
      · exact hgood e h

/-- C10: after every `recordComms` call the optional per-operation fields are
reset — the root rank to -1 and both split-size lists to empty — so a value
supplied via `recordOptionalInfo` is attached to at most the single next
recorded operation: all records emitted by later `recordComms` calls (with no
new `recordOptionalInfo` in between) carry no root and no split fields. -/
theorem recordComms_resets_optional_info (s : CommTraceLogger) (c : CommCall)
    (calls : List CommCall) :
    ((recordComms s c).curRoot = -1 ∧
     (recordComms s c).curInSplitSizes = [] ∧
     (recordComms s c).curOutSplitSizes = []) ∧
    (∀ e, e ∈ (runComms (recordComms s c) calls).comms_trace.drop
        (recordComms s c).comms_trace.length → e.root = none ∧ e.splits = none) := by
  obtain ⟨tail, htr, hgood⟩ := runComms_tail_no_optional calls (recordComms s c) rfl rfl rfl
  refine ⟨⟨rfl, rfl, rfl⟩, ?_⟩
  intro e he
  rw [htr] at he
  have hdrop : ((recordComms s c).comms_trace ++ tail).drop
      (recordComms s c).comms_trace.length = tail := by
    have h0 := drop_append_add (recordComms s c).comms_trace tail 0
    simp only [Nat.add_zero, List.drop_zero] at h0
    exact h0
  rw [hdrop] at he
  exact hgood e he

/-- C10 witness: a root recorded via `recordOptionalInfo` before one
`recordComms` is reset by it, and the record emitted by the following
`recordComms` carries no root field. -/
theorem recordComms_resets_optional_info_witness :
    (recordComms (recordOptionalInfoRoot CommTraceLogger.init 5)
        ⟨"bcast", 0, 2, 0, 0, 10⟩).curRoot = -1 ∧
    (mkEntry (recordComms (recordOptionalInfoRoot CommTraceLogger.init 5)
        ⟨"bcast", 0, 2, 0, 0, 10⟩) ⟨"bcast", 1, 2, 0, 0, 20⟩).root = none :=
  ⟨(recordComms_resets_optional_info (recordOptionalInfoRoot CommTraceLogger.init 5)
      ⟨"bcast", 0, 2, 0, 0, 10⟩ [⟨"bcast", 1, 2, 0, 0, 20⟩]).1.1,
   ((recordComms_resets_optional_info (recordOptionalInfoRoot CommTraceLogger.init 5)
      ⟨"bcast", 0, 2, 0, 0, 10⟩ [⟨"bcast", 1, 2, 0, 0, 20⟩]).2
      (mkEntry (recordComms (recordOptionalInfoRoot CommTraceLogger.init 5)
        ⟨"bcast", 0, 2, 0, 0, 10⟩) ⟨"bcast", 1, 2, 0, 0, 20⟩) (by decide)).1⟩

/-- Program counter of one peer running `oob_allgather_free`
(torch_ucc_comm.cpp:135-159) concurrently with the other peers, one store
operation per step: `start` = about to `add` the completion counter;
`delDone` / `delTeam k` / `setFree k` / `delOwnLast` = the last arriver's
cleanup sequence (delete `ag_done`; delete publish keys `0..k-1` so far;
create release keys `0..k-1` so far; about to delete its own release key);
`waiting` = a non-last peer blocked in `wait` on its own release key;
`delOwnWait` = its wait returned, about to delete that key; `doneLast` /
`doneWait` = returned. -/
inductive RelPC where
  | start
  | delDone
  | delTeam (k : Nat)
  | setFree (k : Nat)
  | delOwnLast
  | waiting
  | delOwnWait
  | doneLast
  | doneWait
  deriving DecidableEq

/-- The store restricted to one round's keys during the release phase:
the completion counter `ag_done` (with its value), and presence of the
publish keys `teamr<r>` and the release keys `ag_free<r>`. -/
structure BStore where
  agDone : Option Nat
  team : Nat → Bool
  agFree : Nat → Bool

/-- A configuration of the concurrent release phase: the shared store and
every peer's program counter. -/
structure RelConfig where
  st : BStore
  pc : Nat → RelPC

/-- One atomic store operation by one peer `i < size` executing
`oob_allgather_free`.  The branch decision after the `add` is local, so it is
fused with the atomic `add`; the blocking `wait` of a non-last peer can only
fire when its own release key exists. -/
inductive RelStep (size : Nat) : RelConfig → RelConfig → Prop where
  | addLast (c : RelConfig) (i : Nat) (hi : i < size)
      (hpc : c.pc i = RelPC.start)
      (hn : c.st.agDone.getD 0 + 1 = size) :
      RelStep size c
        ⟨{ c.st with agDone := some (c.st.agDone.getD 0 + 1) },
         Function.update c.pc i RelPC.delDone⟩
  | addWait (c : RelConfig) (i : Nat) (hi : i < size)
      (hpc : c.pc i = RelPC.start)
      (hn : c.st.agDone.getD 0 + 1 ≠ size) :
      RelStep size c
        ⟨{ c.st with agDone := some (c.st.agDone.getD 0 + 1) },
         Function.update c.pc i RelPC.waiting⟩
  | delDoneStep (c : RelConfig) (i : Nat) (hi : i < size)
      (hpc : c.pc i = RelPC.delDone) :
      RelStep size c
        ⟨{ c.st with agDone := none },
         Function.update c.pc i (RelPC.delTeam 0)⟩
  | delTeamStep (c : RelConfig) (i k : Nat) (hi : i < size) (hk : k < size)
      (hpc : c.pc i = RelPC.delTeam k) :
      RelStep size c
        ⟨{ c.st with team := Function.update c.st.team k false },
         Function.update c.pc i (RelPC.delTeam (k + 1))⟩
  | delTeamFinish (c : RelConfig) (i : Nat) (hi : i < size)
      (hpc : c.pc i = RelPC.delTeam size) :
      RelStep size c ⟨c.st, Function.update c.pc i (RelPC.setFree 0)⟩
  | setFreeStep (c : RelConfig) (i k : Nat) (hi : i < size) (hk : k < size)
      (hpc : c.pc i = RelPC.setFree k) :
      RelStep size c
        ⟨{ c.st with agFree := Function.update c.st.agFree k true },
         Function.update c.pc i (RelPC.setFree (k + 1))⟩
  | setFreeFinish (c : RelConfig) (i : Nat) (hi : i < size)
      (hpc : c.pc i = RelPC.setFree size) :
      RelStep size c ⟨c.st, Function.update c.pc i RelPC.delOwnLast⟩
  | waitStep (c : RelConfig) (i : Nat) (hi : i < size)
      (hpc : c.pc i = RelPC.waiting) (hfree : c.st.agFree i = true) :
      RelStep size c ⟨c.st, Function.update c.pc i RelPC.delOwnWait⟩
  | delOwnLastStep (c : RelConfig) (i : Nat) (hi : i < size)
      (hpc : c.pc i = RelPC.delOwnLast) :
      RelStep size c
        ⟨{ c.st with agFree := Function.update c.st.agFree i false },
         Function.update c.pc i RelPC.doneLast⟩
  | delOwnWaitStep (c : RelConfig) (i : Nat) (hi : i < size)
      (hpc : c.pc i = RelPC.delOwnWait) :
      RelStep size c
        ⟨{ c.st with agFree := Function.update c.st.agFree i false },
         Function.update c.pc i RelPC.doneWait⟩

/-- The state in which all `size` peers are about to call
`oob_allgather_free`: every publish key exists (the rendezvous completed),
the completion counter and all release keys are absent. -/
def relInit (size : Nat) : RelConfig :=
  ⟨⟨none, fun r => decide (r < size), fun _ => false⟩, fun _ => RelPC.start⟩

/-- Configurations reachable from `relInit size` by interleaved steps of the
`size` peers. -/
def RelReachable (size : Nat) (c : RelConfig) : Prop :=
  Relation.ReflTransGen (RelStep size) (relInit size) c

/-- Peers currently inside the last-arriver cleanup branch (they observed a
post-add value equal to `size`). -/
def inLastBranch : RelPC → Bool
  | RelPC.delDone => true
  | RelPC.delTeam _ => true
  | RelPC.setFree _ => true
  | RelPC.delOwnLast => true
  | RelPC.doneLast => true
  | _ => false

/-- Peers past the deletion of the completion counter. -/
def pastDelDone : RelPC → Bool
  | RelPC.delTeam _ => true
  | RelPC.setFree _ => true
  | RelPC.delOwnLast => true
  | RelPC.doneLast => true
  | _ => false

/-- Peers whose `oob_allgather_free` has returned. -/
def isDonePC : RelPC → Bool
  | RelPC.doneLast => true
  | RelPC.doneWait => true
  | _ => false

/-- How many publish keys a peer at this program counter has deleted. -/
def teamProg (size : Nat) : RelPC → Nat
  | RelPC.delTeam k => k
  | RelPC.setFree _ => size
  | RelPC.delOwnLast => size
  | RelPC.doneLast => size
  | _ => 0

/-- How many release keys a peer at this program counter has created. -/
def freeProg (size : Nat) : RelPC → Nat
  | RelPC.setFree k => k
  | RelPC.delOwnLast => size
  | RelPC.doneLast => size
  | _ => 0

/-- The set of peers that have performed their `add` on the completion
counter. -/
def addsDone (size : Nat) (c : RelConfig) : Finset Nat :=
  (Finset.range size).filter (fun i => c.pc i ≠ RelPC.start)

theorem pastDelDone_lastBranch (p : RelPC) (h : pastDelDone p = true) :
    inLastBranch p = true := by
  cases p <;> first | rfl | exact absurd h (by simp [pastDelDone])

theorem teamProg_pos_lastBranch (size : Nat) (p : RelPC) (h : 0 < teamProg size p) :
    inLastBranch p = true := by
  cases p <;> first | rfl | exact absurd h (by simp [teamProg])

theorem freeProg_pos_lastBranch (size : Nat) (p : RelPC) (h : 0 < freeProg size p) :
    inLastBranch p = true := by
  cases p <;> first | rfl | exact absurd h (by simp [freeProg])

theorem addsDone_update_nonstart (size : Nat) (c : RelConfig) (i : Nat) (hi : i < size)
    (v : RelPC) (hv : v ≠ RelPC.start) (st' : BStore) :
    addsDone size ⟨st', Function.update c.pc i v⟩ = insert i (addsDone size c) := by
  ext j
  simp only [addsDone, Finset.mem_filter, Finset.mem_range, Finset.mem_insert]
  by_cases hj : j = i
  · subst hj
    simp [Function.update_same, hv, hi]
  · rw [Function.update_noteq hj]
    simp [hj]

theorem addsDone_update_keep (size : Nat) (c : RelConfig) (i : Nat)
    (hold : c.pc i ≠ RelPC.start) (v : RelPC) (hv : v ≠ RelPC.start) (st' : BStore) :
    addsDone size ⟨st', Function.update c.pc i v⟩ = addsDone size c := by
  ext j
  simp only [addsDone, Finset.mem_filter, Finset.mem_range]
  by_cases hj : j = i
  · subst hj
    simp [Function.update_same, hv, hold]
  · rw [Function.update_noteq hj]

theorem addsDone_full (size : Nat) (c : RelConfig)
    (h : (addsDone size c).card = size) : ∀ j, j < size → c.pc j ≠ RelPC.start := by
  have hsub : addsDone size c ⊆ Finset.range size := Finset.filter_subset _ _
  have heq : addsDone size c = Finset.range size :=
    Finset.eq_of_subset_of_card_le hsub (by rw [h, Finset.card_range])
  intro j hj
  have hmem : j ∈ addsDone size c := by
    rw [heq]
    exact Finset.mem_range.mpr hj
  exact (Finset.mem_filter.mp hmem).2

/-- Inductive invariant of the concurrent release phase:
peers outside `[0, size)` never act and the store holds nothing for ranks
beyond `size`; at most one peer is in the last-arriver branch, and while one
is, every peer has performed its `add`; the counter holds exactly the number
of `add`s until the last arriver deletes it, and is absent afterwards; a
publish key is deleted exactly when the last arriver's sweep has passed it;
a release key is present exactly when the last arriver has created it and
its owner has not yet deleted it (owners delete their own key only on the
way out); and a peer past its `wait` got there because its release key had
been created. -/
structure RelInv (size : Nat) (c : RelConfig) : Prop where
  pc_hi : ∀ i, size ≤ i → c.pc i = RelPC.start
  team_hi : ∀ r, size ≤ r → c.st.team r = false
  free_hi : ∀ r, size ≤ r → c.st.agFree r = false
  uniq : ∀ a b, a < size → b < size → inLastBranch (c.pc a) = true →
    inLastBranch (c.pc b) = true → a = b
  last_all : ∀ l, l < size → inLastBranch (c.pc l) = true →
    ∀ j, j < size → c.pc j ≠ RelPC.start
  agdone_del : (∃ l, l < size ∧ pastDelDone (c.pc l) = true) → c.st.agDone = none
  agdone_count : (∀ l, l < size → pastDelDone (c.pc l) = false) →
    c.st.agDone = if (addsDone size c).card = 0 then none
      else some (addsDone size c).card
  team_iff : ∀ r, r < size →
    (c.st.team r = false ↔ ∃ l, l < size ∧ r < teamProg size (c.pc l))
  free_iff : ∀ r, r < size →
    (c.st.agFree r = true ↔
      (∃ l, l < size ∧ r < freeProg size (c.pc l)) ∧ isDonePC (c.pc r) = false)
  wait_prog : ∀ r, r < size →
    (c.pc r = RelPC.delOwnWait ∨ c.pc r = RelPC.doneWait) →
    ∃ l, l < size ∧ r < freeProg size (c.pc l)

theorem exists_prog_update (g : RelPC → Nat) (size : Nat) (pc : Nat → RelPC) (i : Nat)
    (v : RelPC) (hsame : g v = g (pc i)) (r : Nat) :
    (∃ l, l < size ∧ r < g (Function.update pc i v l)) ↔
      (∃ l, l < size ∧ r < g (pc l)) := by
  constructor
  · rintro ⟨l, hl, hpl⟩
    refine ⟨l, hl, ?_⟩
    by_cases h : l = i
    · subst h
      rw [Function.update_same] at hpl
      rw [← hsame]
      exact hpl
    · rw [Function.update_noteq h] at hpl
      exact hpl
  · rintro ⟨l, hl, hpl⟩
    refine ⟨l, hl, ?_⟩
    by_cases h : l = i
    · subst h
      rw [Function.update_same, hsame]
      exact hpl
    · rw [Function.update_noteq h]
      exact hpl

theorem pc_hi_update (size : Nat) (c : RelConfig) (i : Nat) (hi : i < size) (v : RelPC)
    (hold : ∀ j, size ≤ j → c.pc j = RelPC.start) :
    ∀ j, size ≤ j → (Function.update c.pc i v) j = RelPC.start := by
  intro j hj
  rw [Function.update_noteq (by omega : j ≠ i)]
  exact hold j hj

theorem uniq_update (size : Nat) (c : RelConfig) (i : Nat) (v : RelPC)
    (hsame : inLastBranch v = inLastBranch (c.pc i))
    (huniq : ∀ a b, a < size → b < size → inLastBranch (c.pc a) = true →
      inLastBranch (c.pc b) = true → a = b) :
    ∀ a b, a < size → b < size → inLastBranch ((Function.update c.pc i v) a) = true →
      inLastBranch ((Function.update c.pc i v) b) = true → a = b := by
  intro a b ha hb hla hlb
  have ha' : inLastBranch (c.pc a) = true := by
    by_cases h : a = i
    · subst h
      rw [Function.update_same] at hla
      rw [← hsame]
      exact hla
    · rw [Function.update_noteq h] at hla
      exact hla
  have hb' : inLastBranch (c.pc b) = true := by
    by_cases h : b = i
    · subst h
      rw [Function.update_same] at hlb
      rw [← hsame]
      exact hlb
    · rw [Function.update_noteq h] at hlb
      exact hlb
  exact huniq a b ha hb ha' hb'

theorem last_all_update_keep (size : Nat) (c : RelConfig) (i : Nat) (v : RelPC)
    (hv : v ≠ RelPC.start)
    (hold : ∀ l, l < size → inLastBranch (c.pc l) = true →
      ∀ j, j < size → c.pc j ≠ RelPC.start)
    (hcase : inLastBranch v = true → inLastBranch (c.pc i) = true) :
    ∀ l, l < size → inLastBranch ((Function.update c.pc i v) l) = true →
      ∀ j, j < size → (Function.update c.pc i v) j ≠ RelPC.start := by
  intro l hl hlb j hj
  by_cases hji : j = i
  · subst hji
    rw [Function.update_same]
    exact hv
  · rw [Function.update_noteq hji]
    by_cases hli : l = i
    · subst hli
      rw [Function.update_same] at hlb
      exact hold l hl (hcase hlb) j hj
    · rw [Function.update_noteq hli] at hlb
      exact hold l hl hlb j hj

theorem team_iff_update (size : Nat) (c : RelConfig) (st' : BStore) (i : Nat) (v : RelPC)
    (hteam : st'.team = c.st.team)
    (hsame : teamProg size v = teamProg size (c.pc i))
    (hiff : ∀ r, r < size →
      (c.st.team r = false ↔ ∃ l, l < size ∧ r < teamProg size (c.pc l))) :
    ∀ r, r < size → (st'.team r = false ↔
      ∃ l, l < size ∧ r < teamProg size ((Function.update c.pc i v) l)) := by
  intro r hr
  rw [hteam, exists_prog_update (teamProg size) size c.pc i v hsame r]
  exact hiff r hr

theorem free_iff_update (size : Nat) (c : RelConfig) (st' : BStore) (i : Nat) (v : RelPC)
    (hfree : st'.agFree = c.st.agFree)
    (hsame : freeProg size v = freeProg size (c.pc i))
    (hdone : isDonePC v = isDonePC (c.pc i))
    (hiff : ∀ r, r < size → (c.st.agFree r = true ↔
      (∃ l, l < size ∧ r < freeProg size (c.pc l)) ∧ isDonePC (c.pc r) = false)) :
    ∀ r, r < size → (st'.agFree r = true ↔
      (∃ l, l < size ∧ r < freeProg size ((Function.update c.pc i v) l)) ∧
        isDonePC ((Function.update c.pc i v) r) = false) := by
  intro r hr
  have hd : isDonePC (Function.update c.pc i v r) = isDonePC (c.pc r) := by
    by_cases h : r = i
    · subst h
      rw [Function.update_same, hdone]
    · rw [Function.update_noteq h]
  rw [hfree, exists_prog_update (freeProg size) size c.pc i v hsame r, hd]
  exact hiff r hr

theorem wait_prog_update (size : Nat) (c : RelConfig) (i : Nat) (v : RelPC)
    (hmon : freeProg size (c.pc i) ≤ freeProg size v)
    (hws : (v = RelPC.delOwnWait ∨ v = RelPC.doneWait) →
      (c.pc i = RelPC.delOwnWait ∨ c.pc i = RelPC.doneWait))
    (hold : ∀ r, r < size → (c.pc r = RelPC.delOwnWait ∨ c.pc r = RelPC.doneWait) →
      ∃ l, l < size ∧ r < freeProg size (c.pc l)) :
    ∀ r, r < size → ((Function.update c.pc i v) r = RelPC.delOwnWait ∨
        (Function.update c.pc i v) r = RelPC.doneWait) →
      ∃ l, l < size ∧ r < freeProg size ((Function.update c.pc i v) l) := by
  intro r hr hws'
  have hold' : ∃ l, l < size ∧ r < freeProg size (c.pc l) := by
    by_cases h : r = i
    · subst h
      rw [Function.update_same] at hws'
      exact hold r hr (hws hws')
    · rw [Function.update_noteq h] at hws'
      exact hold r hr hws'
  obtain ⟨l, hl, hpl⟩ := hold'
  refine ⟨l, hl, ?_⟩
  by_cases h : l = i
  · subst h
    rw [Function.update_same]
    exact lt_of_lt_of_le hpl hmon
  · rw [Function.update_noteq h]
    exact hpl

theorem agdone_update_keep (size : Nat) (c : RelConfig) (st' : BStore) (i : Nat)
    (v : RelPC) (hag : st'.agDone = c.st.agDone)
    (hpd : pastDelDone v = pastDelDone (c.pc i))
    (hstart : v ≠ RelPC.start) (hstart2 : c.pc i ≠ RelPC.start)
    (hdel : (∃ l, l < size ∧ pastDelDone (c.pc l) = true) → c.st.agDone = none)
    (hcount : (∀ l, l < size → pastDelDone (c.pc l) = false) →
      c.st.agDone = if (addsDone size c).card = 0 then none
        else some (addsDone size c).card) :
    ((∃ l, l < size ∧ pastDelDone ((Function.update c.pc i v) l) = true) →
      st'.agDone = none) ∧
    ((∀ l, l < size → pastDelDone ((Function.update c.pc i v) l) = false) →
      st'.agDone = if (addsDone size ⟨st', Function.update c.pc i v⟩).card = 0 then none
        else some (addsDone size ⟨st', Function.update c.pc i v⟩).card) := by
  have hpd' : ∀ l, pastDelDone ((Function.update c.pc i v) l) = pastDelDone (c.pc l) := by
    intro l
    by_cases h : l = i
    · subst h
      rw [Function.update_same, hpd]
    · rw [Function.update_noteq h]
  have hcards : addsDone size ⟨st', Function.update c.pc i v⟩ = addsDone size c :=
    addsDone_update_keep size c i hstart2 v hstart st'
  constructor
  · rintro ⟨l, hl, hp⟩
    rw [hpd' l] at hp
    rw [hag]
    exact hdel ⟨l, hl, hp⟩
  · intro h
    rw [hag, hcards]
    exact hcount (fun l hl => by rw [← hpd' l]; exact h l hl)

theorem no_last_of_start (size : Nat) (c : RelConfig) (i : Nat) (hi : i < size)
    (hpc : c.pc i = RelPC.start) (hinv : RelInv size c) :
    ∀ l, l < size → inLastBranch (c.pc l) = false := by
  intro l hl
  cases hlb : inLastBranch (c.pc l) with
  | false => rfl
  | true => exact absurd hpc (hinv.last_all l hl hlb i hi)

theorem no_past_of_start (size : Nat) (c : RelConfig) (i : Nat) (hi : i < size)
    (hpc : c.pc i = RelPC.start) (hinv : RelInv size c) :
    ∀ l, l < size → pastDelDone (c.pc l) = false := by
  intro l hl
  cases hpd : pastDelDone (c.pc l) with
  | false => rfl
  | true =>
    have hlb := pastDelDone_lastBranch _ hpd
    rw [no_last_of_start size c i hi hpc hinv l hl] at hlb
    exact Bool.noConfusion hlb

theorem agdone_val_of_start (size : Nat) (c : RelConfig) (i : Nat) (hi : i < size)
    (hpc : c.pc i = RelPC.start) (hinv : RelInv size c) :
    c.st.agDone.getD 0 = (addsDone size c).card := by
  have hcount := hinv.agdone_count (no_past_of_start size c i hi hpc hinv)
  by_cases h0 : (addsDone size c).card = 0
  · rw [hcount, if_pos h0, h0]
    rfl
  · rw [hcount, if_neg h0]
    rfl

theorem i_not_mem_addsDone (size : Nat) (c : RelConfig) (i : Nat)
    (hpc : c.pc i = RelPC.start) : i ∉ addsDone size c := by
  intro hmem
  exact (Finset.mem_filter.mp hmem).2 hpc

theorem preserve_addLast (size : Nat) (c : RelConfig) (i : Nat) (hi : i < size)
    (hpc : c.pc i = RelPC.start) (hn : c.st.agDone.getD 0 + 1 = size)
    (hinv : RelInv size c) :
    RelInv size ⟨{ c.st with agDone := some (c.st.agDone.getD 0 + 1) },
      Function.update c.pc i RelPC.delDone⟩ := by
  have hnolast := no_last_of_start size c i hi hpc hinv
  have hA := agdone_val_of_start size c i hi hpc hinv
  have hvne : RelPC.delDone ≠ RelPC.start := by simp
  have hcard : (addsDone size ⟨{ c.st with agDone := some (c.st.agDone.getD 0 + 1) },
      Function.update c.pc i RelPC.delDone⟩).card = (addsDone size c).card + 1 := by
    rw [addsDone_update_nonstart size c i hi _ hvne _,
      Finset.card_insert_of_not_mem (i_not_mem_addsDone size c i hpc)]
  have hallstart : ∀ j, j < size →
      (Function.update c.pc i RelPC.delDone) j ≠ RelPC.start := by
    apply addsDone_full size ⟨{ c.st with agDone := some (c.st.agDone.getD 0 + 1) },
      Function.update c.pc i RelPC.delDone⟩
    rw [hcard, ← hA, hn]
  refine ⟨?_, ?_, ?_, ?_, ?_, ?_, ?_, ?_, ?_, ?_⟩
  · exact pc_hi_update size c i hi _ hinv.pc_hi
  · exact hinv.team_hi
  · exact hinv.free_hi
  · intro a b ha hb hla hlb
    dsimp only at hla hlb
    by_cases hai : a = i
    · by_cases hbi : b = i
      · rw [hai, hbi]
      · rw [Function.update_noteq hbi, hnolast b hb] at hlb
        exact Bool.noConfusion hlb
    · rw [Function.update_noteq hai, hnolast a ha] at hla
      exact Bool.noConfusion hla
  · intro l hl _ j hj
    exact hallstart j hj
  · rintro ⟨l, hl, hp⟩
    dsimp only at hp
    exfalso
    by_cases hli : l = i
    · subst hli
      rw [Function.update_same] at hp
      exact absurd hp (by simp [pastDelDone])
    · rw [Function.update_noteq hli] at hp
      have hlb := pastDelDone_lastBranch _ hp
      rw [hnolast l hl] at hlb
      exact Bool.noConfusion hlb
  · intro _
    rw [hcard, if_neg (Nat.succ_ne_zero _)]
    show some (c.st.agDone.getD 0 + 1) = some ((addsDone size c).card + 1)
    rw [hA]
  · exact team_iff_update size c _ i _ rfl (by rw [hpc]; rfl) hinv.team_iff
  · exact free_iff_update size c _ i _ rfl (by rw [hpc]; rfl) (by rw [hpc]; rfl)
      hinv.free_iff
  · exact wait_prog_update size c i _ (by rw [hpc]; exact Nat.le_refl _)
      (by rintro (h | h) <;> exact RelPC.noConfusion h) hinv.wait_prog

theorem preserve_addWait (size : Nat) (c : RelConfig) (i : Nat) (hi : i < size)
    (hpc : c.pc i = RelPC.start) (_hn : c.st.agDone.getD 0 + 1 ≠ size)
    (hinv : RelInv size c) :
    RelInv size ⟨{ c.st with agDone := some (c.st.agDone.getD 0 + 1) },
      Function.update c.pc i RelPC.waiting⟩ := by
  have hnolast := no_last_of_start size c i hi hpc hinv
  have hA := agdone_val_of_start size c i hi hpc hinv
  have hvne : RelPC.waiting ≠ RelPC.start := by simp
  have hcard : (addsDone size ⟨{ c.st with agDone := some (c.st.agDone.getD 0 + 1) },
      Function.update c.pc i RelPC.waiting⟩).card = (addsDone size c).card + 1 := by
    rw [addsDone_update_nonstart size c i hi _ hvne _,
      Finset.card_insert_of_not_mem (i_not_mem_addsDone size c i hpc)]
  refine ⟨?_, ?_, ?_, ?_, ?_, ?_, ?_, ?_, ?_, ?_⟩
  · exact pc_hi_update size c i hi _ hinv.pc_hi
  · exact hinv.team_hi
  · exact hinv.free_hi
  · exact uniq_update size c i _ (by rw [hpc]; rfl) hinv.uniq
  · exact last_all_update_keep size c i _ hvne hinv.last_all
      (by intro h; rw [show inLastBranch RelPC.waiting = false from rfl] at h
          exact Bool.noConfusion h)
  · rintro ⟨l, hl, hp⟩
    dsimp only at hp
    exfalso
    by_cases hli : l = i
    · subst hli
      rw [Function.update_same] at hp
      exact absurd hp (by simp [pastDelDone])
    · rw [Function.update_noteq hli] at hp
      have hlb := pastDelDone_lastBranch _ hp
      rw [hnolast l hl] at hlb
      exact Bool.noConfusion hlb
  · intro _
    rw [hcard, if_neg (Nat.succ_ne_zero _)]
    show some (c.st.agDone.getD 0 + 1) = some ((addsDone size c).card + 1)
    rw [hA]
  · exact team_iff_update size c _ i _ rfl (by rw [hpc]; rfl) hinv.team_iff
  · exact free_iff_update size c _ i _ rfl (by rw [hpc]; rfl) (by rw [hpc]; rfl)
      hinv.free_iff
  · exact wait_prog_update size c i _ (by rw [hpc]; exact Nat.le_refl _)
      (by rintro (h | h) <;> exact RelPC.noConfusion h) hinv.wait_prog

theorem isDone_cases (p : RelPC) (h : isDonePC p = true) :
    p = RelPC.doneLast ∨ p = RelPC.doneWait := by
  cases p <;> first
    | exact Or.inl rfl
    | exact Or.inr rfl
    | exact absurd h (by simp [isDonePC])

theorem preserve_delDoneStep (size : Nat) (c : RelConfig) (i : Nat) (hi : i < size)
    (hpc : c.pc i = RelPC.delDone) (hinv : RelInv size c) :
    RelInv size ⟨{ c.st with agDone := none },
      Function.update c.pc i (RelPC.delTeam 0)⟩ := by
  refine ⟨?_, ?_, ?_, ?_, ?_, ?_, ?_, ?_, ?_, ?_⟩
  · exact pc_hi_update size c i hi _ hinv.pc_hi
  · exact hinv.team_hi
  · exact hinv.free_hi
  · exact uniq_update size c i _ (by rw [hpc]; rfl) hinv.uniq
  · exact last_all_update_keep size c i _ (by simp) hinv.last_all
      (by intro _; rw [hpc]; rfl)
  · intro _
    rfl
  · intro h
    exfalso
    have hk := h i hi
    dsimp only at hk
    rw [Function.update_same] at hk
    exact absurd hk (by simp [pastDelDone])
  · exact team_iff_update size c _ i _ rfl (by rw [hpc]; rfl) hinv.team_iff
  · exact free_iff_update size c _ i _ rfl (by rw [hpc]; rfl) (by rw [hpc]; rfl)
      hinv.free_iff
  · exact wait_prog_update size c i _ (by rw [hpc]; exact Nat.le_refl _)
      (by rintro (h | h) <;> exact RelPC.noConfusion h) hinv.wait_prog

theorem preserve_delTeamFinish (size : Nat) (c : RelConfig) (i : Nat) (hi : i < size)
    (hpc : c.pc i = RelPC.delTeam size) (hinv : RelInv size c) :
    RelInv size ⟨c.st, Function.update c.pc i (RelPC.setFree 0)⟩ := by
  have hag := agdone_update_keep size c c.st i (RelPC.setFree 0) rfl
    (by rw [hpc]; rfl) (by simp) (by rw [hpc]; simp) hinv.agdone_del hinv.agdone_count
  refine ⟨?_, ?_, ?_, ?_, ?_, ?_, ?_, ?_, ?_, ?_⟩
  · exact pc_hi_update size c i hi _ hinv.pc_hi
  · exact hinv.team_hi
  · exact hinv.free_hi
  · exact uniq_update size c i _ (by rw [hpc]; rfl) hinv.uniq
  · exact last_all_update_keep size c i _ (by simp) hinv.last_all
      (by intro _; rw [hpc]; rfl)
  · exact hag.1
  · exact hag.2
  · exact team_iff_update size c c.st i _ rfl (by rw [hpc]; rfl) hinv.team_iff
  · exact free_iff_update size c c.st i _ rfl (by rw [hpc]; rfl) (by rw [hpc]; rfl)
      hinv.free_iff
  · exact wait_prog_update size c i _ (by rw [hpc]; exact Nat.le_refl _)
      (by rintro (h | h) <;> exact RelPC.noConfusion h) hinv.wait_prog

theorem preserve_setFreeFinish (size : Nat) (c : RelConfig) (i : Nat) (hi : i < size)
    (hpc : c.pc i = RelPC.setFree size) (hinv : RelInv size c) :
    RelInv size ⟨c.st, Function.update c.pc i RelPC.delOwnLast⟩ := by
  have hag := agdone_update_keep size c c.st i RelPC.delOwnLast rfl
    (by rw [hpc]; rfl) (by simp) (by rw [hpc]; simp) hinv.agdone_del hinv.agdone_count
  refine ⟨?_, ?_, ?_, ?_, ?_, ?_, ?_, ?_, ?_, ?_⟩
  · exact pc_hi_update size c i hi _ hinv.pc_hi
  · exact hinv.team_hi
  · exact hinv.free_hi
  · exact uniq_update size c i _ (by rw [hpc]; rfl) hinv.uniq
  · exact last_all_update_keep size c i _ (by simp) hinv.last_all
      (by intro _; rw [hpc]; rfl)
  · exact hag.1
  · exact hag.2
  · exact team_iff_update size c c.st i _ rfl (by rw [hpc]; rfl) hinv.team_iff
  · exact free_iff_update size c c.st i _ rfl (by rw [hpc]; rfl) (by rw [hpc]; rfl)
      hinv.free_iff
  · exact wait_prog_update size c i _ (by rw [hpc]; exact Nat.le_refl _)
      (by rintro (h | h) <;> exact RelPC.noConfusion h) hinv.wait_prog

theorem preserve_waitStep (size : Nat) (c : RelConfig) (i : Nat) (hi : i < size)
    (hpc : c.pc i = RelPC.waiting) (hfree : c.st.agFree i = true)
    (hinv : RelInv size c) :
    RelInv size ⟨c.st, Function.update c.pc i RelPC.delOwnWait⟩ := by
  have hag := agdone_update_keep size c c.st i RelPC.delOwnWait rfl
    (by rw [hpc]; rfl) (by simp) (by rw [hpc]; simp) hinv.agdone_del hinv.agdone_count
  refine ⟨?_, ?_, ?_, ?_, ?_, ?_, ?_, ?_, ?_, ?_⟩
  · exact pc_hi_update size c i hi _ hinv.pc_hi
  · exact hinv.team_hi
  · exact hinv.free_hi
  · exact uniq_update size c i _ (by rw [hpc]; rfl) hinv.uniq
  · exact last_all_update_keep size c i _ (by simp) hinv.last_all
      (by intro h; exact absurd h (by simp [inLastBranch]))
  · exact hag.1
  · exact hag.2
  · exact team_iff_update size c c.st i _ rfl (by rw [hpc]; rfl) hinv.team_iff
  · exact free_iff_update size c c.st i _ rfl (by rw [hpc]; rfl) (by rw [hpc]; rfl)
      hinv.free_iff
  · intro r hr hws
    dsimp only at hws ⊢
    by_cases hri : r = i
    · obtain ⟨⟨l, hl, hpl⟩, _⟩ := (hinv.free_iff i hi).mp hfree
      have hlne : l ≠ i := by
        intro he
        rw [he, hpc] at hpl
        exact absurd hpl (by simp [freeProg])
      refine ⟨l, hl, ?_⟩
      rw [Function.update_noteq hlne]
      rw [hri]
      exact hpl
    · rw [Function.update_noteq hri] at hws
      obtain ⟨l, hl, hpl⟩ := hinv.wait_prog r hr hws
      have hlne : l ≠ i := by
        intro he
        rw [he, hpc] at hpl
        exact absurd hpl (by simp [freeProg])
      refine ⟨l, hl, ?_⟩
      rw [Function.update_noteq hlne]
      exact hpl

theorem preserve_delTeamStep (size : Nat) (c : RelConfig) (i k : Nat) (hi : i < size)
    (hk : k < size) (hpc : c.pc i = RelPC.delTeam k) (hinv : RelInv size c) :
    RelInv size ⟨{ c.st with team := Function.update c.st.team k false },
      Function.update c.pc i (RelPC.delTeam (k + 1))⟩ := by
  have hag := agdone_update_keep size c
    { c.st with team := Function.update c.st.team k false } i (RelPC.delTeam (k + 1)) rfl
    (by rw [hpc]; rfl) (by simp) (by rw [hpc]; simp) hinv.agdone_del hinv.agdone_count
  have honly : ∀ l, l < size → 0 < teamProg size (c.pc l) → l = i := by
    intro l hl hpos
    exact hinv.uniq l i hl hi (teamProg_pos_lastBranch size _ hpos) (by rw [hpc]; rfl)
  refine ⟨?_, ?_, ?_, ?_, ?_, ?_, ?_, ?_, ?_, ?_⟩
  · exact pc_hi_update size c i hi _ hinv.pc_hi
  · intro r hr
    dsimp only
    have hrk : r ≠ k := by omega
    rw [Function.update_noteq hrk]
    exact hinv.team_hi r hr
  · exact hinv.free_hi
  · exact uniq_update size c i _ (by rw [hpc]; rfl) hinv.uniq
  · exact last_all_update_keep size c i _ (by simp) hinv.last_all
      (by intro _; rw [hpc]; rfl)
  · exact hag.1
  · exact hag.2
  · intro r hr
    dsimp only
    by_cases hrk : r = k
    · constructor
      · intro _
        refine ⟨i, hi, ?_⟩
        rw [Function.update_same]
        show r < k + 1
        omega
      · intro _
        rw [hrk, Function.update_same]
    · constructor
      · intro hteam
        rw [Function.update_noteq hrk] at hteam
        obtain ⟨l, hl, hpl⟩ := (hinv.team_iff r hr).mp hteam
        have hli : l = i := honly l hl (Nat.lt_of_le_of_lt (Nat.zero_le r) hpl)
        rw [hli, hpc] at hpl
        have hpl' : r < k := hpl
        refine ⟨i, hi, ?_⟩
        rw [Function.update_same]
        show r < k + 1
        omega
      · rintro ⟨l, hl, hpl⟩
        rw [Function.update_noteq hrk]
        apply (hinv.team_iff r hr).mpr
        by_cases hli : l = i
        · rw [hli, Function.update_same] at hpl
          have hpl' : r < k + 1 := hpl
          refine ⟨i, hi, ?_⟩
          rw [hpc]
          show r < k
          omega
        · rw [Function.update_noteq hli] at hpl
          exact ⟨l, hl, hpl⟩
  · exact free_iff_update size c _ i _ rfl (by rw [hpc]; rfl) (by rw [hpc]; rfl)
      hinv.free_iff
  · exact wait_prog_update size c i _ (by rw [hpc]; exact Nat.le_refl _)
      (by rintro (h | h) <;> exact RelPC.noConfusion h) hinv.wait_prog

theorem preserve_setFreeStep (size : Nat) (c : RelConfig) (i k : Nat) (hi : i < size)
    (hk : k < size) (hpc : c.pc i = RelPC.setFree k) (hinv : RelInv size c) :
    RelInv size ⟨{ c.st with agFree := Function.update c.st.agFree k true },
      Function.update c.pc i (RelPC.setFree (k + 1))⟩ := by
  have hag := agdone_update_keep size c
    { c.st with agFree := Function.update c.st.agFree k true } i (RelPC.setFree (k + 1)) rfl
    (by rw [hpc]; rfl) (by simp) (by rw [hpc]; simp) hinv.agdone_del hinv.agdone_count
  have honly : ∀ l, l < size → 0 < freeProg size (c.pc l) → l = i := by
    intro l hl hpos
    exact hinv.uniq l i hl hi (freeProg_pos_lastBranch size _ hpos) (by rw [hpc]; rfl)
  have hnotdone_k : isDonePC (c.pc k) = false := by
    by_cases hki : k = i
    · rw [hki, hpc]
      rfl
    · cases hd : isDonePC (c.pc k) with
      | false => rfl
      | true =>
        exfalso
        rcases isDone_cases _ hd with hck | hck
        · have hlb : inLastBranch (c.pc k) = true := by rw [hck]; rfl
          exact hki (hinv.uniq k i hk hi hlb (by rw [hpc]; rfl))
        · obtain ⟨l, hl, hpl⟩ := hinv.wait_prog k hk (Or.inr hck)
          have hli : l = i := honly l hl (Nat.lt_of_le_of_lt (Nat.zero_le k) hpl)
          rw [hli, hpc] at hpl
          exact absurd hpl (by simp [freeProg])
  refine ⟨?_, ?_, ?_, ?_, ?_, ?_, ?_, ?_, ?_, ?_⟩
  · exact pc_hi_update size c i hi _ hinv.pc_hi
  · exact hinv.team_hi
  · intro r hr
    dsimp only
    have hrk : r ≠ k := by omega
    rw [Function.update_noteq hrk]
    exact hinv.free_hi r hr
  · exact uniq_update size c i _ (by rw [hpc]; rfl) hinv.uniq
  · exact last_all_update_keep size c i _ (by simp) hinv.last_all
      (by intro _; rw [hpc]; rfl)
  · exact hag.1
  · exact hag.2
  · exact team_iff_update size c _ i _ rfl (by rw [hpc]; rfl) hinv.team_iff
  · intro r hr
    dsimp only
    by_cases hrk : r = k
    · constructor
      · intro _
        refine ⟨⟨i, hi, ?_⟩, ?_⟩
        · rw [Function.update_same]
          show r < k + 1
          omega
        · by_cases hri : r = i
          · rw [hri, Function.update_same]
            rfl
          · rw [Function.update_noteq hri, hrk]
            exact hnotdone_k
      · intro _
        rw [hrk, Function.update_same]
    · constructor
      · intro hfr
        rw [Function.update_noteq hrk] at hfr
        obtain ⟨⟨l, hl, hpl⟩, hdr⟩ := (hinv.free_iff r hr).mp hfr
        have hli : l = i := honly l hl (Nat.lt_of_le_of_lt (Nat.zero_le r) hpl)
        rw [hli, hpc] at hpl
        have hpl' : r < k := hpl
        refine ⟨⟨i, hi, ?_⟩, ?_⟩
        · rw [Function.update_same]
          show r < k + 1
          omega
        · by_cases hri : r = i
          · rw [hri, Function.update_same]
            rfl
          · rw [Function.update_noteq hri]
            exact hdr
      · rintro ⟨⟨l, hl, hpl⟩, hdr⟩
        rw [Function.update_noteq hrk]
        apply (hinv.free_iff r hr).mpr
        constructor
        · by_cases hli : l = i
          · rw [hli, Function.update_same] at hpl
            have hpl' : r < k + 1 := hpl
            refine ⟨i, hi, ?_⟩
            rw [hpc]
            show r < k
            omega
          · rw [Function.update_noteq hli] at hpl
            exact ⟨l, hl, hpl⟩
        · by_cases hri : r = i
          · rw [hri, hpc]
            rfl
          · rw [Function.update_noteq hri] at hdr
            exact hdr
  · exact wait_prog_update size c i _ (by rw [hpc]; exact Nat.le_succ k)
      (by rintro (h | h) <;> exact RelPC.noConfusion h) hinv.wait_prog

theorem preserve_delOwnLastStep (size : Nat) (c : RelConfig) (i : Nat) (hi : i < size)
    (hpc : c.pc i = RelPC.delOwnLast) (hinv : RelInv size c) :
    RelInv size ⟨{ c.st with agFree := Function.update c.st.agFree i false },
      Function.update c.pc i RelPC.doneLast⟩ := by
  have hag := agdone_update_keep size c
    { c.st with agFree := Function.update c.st.agFree i false } i RelPC.doneLast rfl
    (by rw [hpc]; rfl) (by simp) (by rw [hpc]; simp) hinv.agdone_del hinv.agdone_count
  refine ⟨?_, ?_, ?_, ?_, ?_, ?_, ?_, ?_, ?_, ?_⟩
  · exact pc_hi_update size c i hi _ hinv.pc_hi
  · exact hinv.team_hi
  · intro r hr
    dsimp only
    by_cases hri : r = i
    · rw [hri, Function.update_same]
    · rw [Function.update_noteq hri]
      exact hinv.free_hi r hr
  · exact uniq_update size c i _ (by rw [hpc]; rfl) hinv.uniq
  · exact last_all_update_keep size c i _ (by simp) hinv.last_all
      (by intro _; rw [hpc]; rfl)
  · exact hag.1
  · exact hag.2
  · exact team_iff_update size c _ i _ rfl (by rw [hpc]; rfl) hinv.team_iff
  · intro r hr
    dsimp only
    by_cases hri : r = i
    · constructor
      · intro hfr
        rw [hri, Function.update_same] at hfr
        exact Bool.noConfusion hfr
      · rintro ⟨_, hdr⟩
        rw [hri, Function.update_same] at hdr
        exact absurd hdr (by simp [isDonePC])
    · rw [Function.update_noteq hri]
      have hdsame : isDonePC (Function.update c.pc i RelPC.doneLast r) =
          isDonePC (c.pc r) := by
        rw [Function.update_noteq hri]
      rw [hdsame,
        exists_prog_update (freeProg size) size c.pc i RelPC.doneLast (by rw [hpc]; rfl) r]
      exact hinv.free_iff r hr
  · exact wait_prog_update size c i _ (by rw [hpc]; exact Nat.le_refl _)
      (by rintro (h | h) <;> exact RelPC.noConfusion h) hinv.wait_prog

theorem preserve_delOwnWaitStep (size : Nat) (c : RelConfig) (i : Nat) (hi : i < size)
    (hpc : c.pc i = RelPC.delOwnWait) (hinv : RelInv size c) :
    RelInv size ⟨{ c.st with agFree := Function.update c.st.agFree i false },
      Function.update c.pc i RelPC.doneWait⟩ := by
  have hag := agdone_update_keep size c
    { c.st with agFree := Function.update c.st.agFree i false } i RelPC.doneWait rfl
    (by rw [hpc]; rfl) (by simp) (by rw [hpc]; simp) hinv.agdone_del hinv.agdone_count
  refine ⟨?_, ?_, ?_, ?_, ?_, ?_, ?_, ?_, ?_, ?_⟩
  · exact pc_hi_update size c i hi _ hinv.pc_hi
  · exact hinv.team_hi
  · intro r hr
    dsimp only
    by_cases hri : r = i
    · rw [hri, Function.update_same]
    · rw [Function.update_noteq hri]
      exact hinv.free_hi r hr
  · exact uniq_update size c i _ (by rw [hpc]; rfl) hinv.uniq
  · exact last_all_update_keep size c i _ (by simp) hinv.last_all
      (by intro h; exact absurd h (by simp [inLastBranch]))
  · exact hag.1
  · exact hag.2
  · exact team_iff_update size c _ i _ rfl (by rw [hpc]; rfl) hinv.team_iff
  · intro r hr
    dsimp only
    by_cases hri : r = i
    · constructor
      · intro hfr
        rw [hri, Function.update_same] at hfr
        exact Bool.noConfusion hfr
      · rintro ⟨_, hdr⟩
        rw [hri, Function.update_same] at hdr
        exact absurd hdr (by simp [isDonePC])
    · rw [Function.update_noteq hri]
      have hdsame : isDonePC (Function.update c.pc i RelPC.doneWait r) =
          isDonePC (c.pc r) := by
        rw [Function.update_noteq hri]
      rw [hdsame,
        exists_prog_update (freeProg size) size c.pc i RelPC.doneWait (by rw [hpc]; rfl) r]
      exact hinv.free_iff r hr
  · exact wait_prog_update size c i _ (by rw [hpc]; exact Nat.le_refl _)
      (by intro _; exact Or.inl hpc) hinv.wait_prog

theorem relInv_step (size : Nat) (c c2 : RelConfig) (hstep : RelStep size c c2)
    (hinv : RelInv size c) : RelInv size c2 := by
  cases hstep with
  | addLast i hi hpc hn => exact preserve_addLast size c i hi hpc hn hinv
  | addWait i hi hpc hn => exact preserve_addWait size c i hi hpc hn hinv
  | delDoneStep i hi hpc => exact preserve_delDoneStep size c i hi hpc hinv
  | delTeamStep i k hi hk hpc => exact preserve_delTeamStep size c i k hi hk hpc hinv
  | delTeamFinish i hi hpc => exact preserve_delTeamFinish size c i hi hpc hinv
  | setFreeStep i k hi hk hpc => exact preserve_setFreeStep size c i k hi hk hpc hinv
  | setFreeFinish i hi hpc => exact preserve_setFreeFinish size c i hi hpc hinv
  | waitStep i hi hpc hfree => exact preserve_waitStep size c i hi hpc hfree hinv
  | delOwnLastStep i hi hpc => exact preserve_delOwnLastStep size c i hi hpc hinv
  | delOwnWaitStep i hi hpc => exact preserve_delOwnWaitStep size c i hi hpc hinv

theorem relInv_init (size : Nat) : RelInv size (relInit size) := by
  refine ⟨?_, ?_, ?_, ?_, ?_, ?_, ?_, ?_, ?_, ?_⟩
  · intro i _
    rfl
  · intro r hr
    simp only [relInit, decide_eq_false_iff_not]
    omega
  · intro r _
    rfl
  · intro a b _ _ hla _
    exact absurd hla (by simp [relInit, inLastBranch])
  · intro l _ hlb
    exact absurd hlb (by simp [relInit, inLastBranch])
  · rintro ⟨l, _, hp⟩
    exact absurd hp (by simp [relInit, pastDelDone])
  · intro _
    have hempty : addsDone size (relInit size) = ∅ := by
      ext j
      simp [addsDone, relInit]
    rw [hempty]
    rfl
  · intro r hr
    simp [relInit, teamProg, hr]
  · intro r hr
    simp [relInit, freeProg]
  · intro r _ hws
    rcases hws with h | h <;> exact RelPC.noConfusion h

theorem relInv_reachable (size : Nat) (c : RelConfig) (h : RelReachable size c) :
    RelInv size c := by
  have h2 : Relation.ReflTransGen (RelStep size) (relInit size) c := h
  clear h
  induction h2 with
  | refl => exact relInv_init size
  | tail _ hstep ih => exact relInv_step size _ _ hstep ih

/-- C3: after every one of the `size` peers has completed
`oob_allgather_free` — in any interleaving of their store operations starting
from the post-rendezvous store — none of the round's keys remains: the
completion counter `ag_done` is absent, every publish key `teamr<r>` is
absent, and every release key `ag_free<r>` is absent.  The namespace is fully
drained and safe for reuse. -/
theorem release_drains_namespace (size : Nat) (c : RelConfig) (hsize : 1 ≤ size)
    (hreach : RelReachable size c)
    (hdone : ∀ i, i < size → isDonePC (c.pc i) = true) :
    c.st.agDone = none ∧
    (∀ r, r < size → c.st.team r = false) ∧
    (∀ r, r < size → c.st.agFree r = false) := by
  have hinv := relInv_reachable size c hreach
  have hlast : ∃ l, l < size ∧ c.pc l = RelPC.doneLast := by
    rcases isDone_cases _ (hdone 0 hsize) with h0 | h0
    · exact ⟨0, hsize, h0⟩
    · obtain ⟨m, hm, hprog⟩ := hinv.wait_prog 0 hsize (Or.inr h0)
      have hlb : inLastBranch (c.pc m) = true :=
        freeProg_pos_lastBranch size _ (Nat.lt_of_le_of_lt (Nat.zero_le 0) hprog)
      rcases isDone_cases _ (hdone m hm) with hm2 | hm2
      · exact ⟨m, hm, hm2⟩
      · rw [hm2] at hlb
        exact absurd hlb (by simp [inLastBranch])
  obtain ⟨l, hl, hpcl⟩ := hlast
  refine ⟨?_, ?_, ?_⟩
  · exact hinv.agdone_del ⟨l, hl, by rw [hpcl]; rfl⟩
  · intro r hr
    apply (hinv.team_iff r hr).mpr
    refine ⟨l, hl, ?_⟩
    rw [hpcl]
    exact hr
  · intro r hr
    cases hfr : c.st.agFree r with
    | false => rfl
    | true =>
      have hd := ((hinv.free_iff r hr).mp hfr).2
      rw [hdone r hr] at hd
      exact Bool.noConfusion hd

/-- C3 witness: one peer; it is the last arriver, runs the whole cleanup, and
the terminal store holds none of the round's keys. -/
theorem release_drains_namespace_witness :
    ∃ c, RelReachable 1 c ∧ (∀ i, i < 1 → isDonePC (c.pc i) = true) ∧
      (c.st.agDone = none ∧
        (∀ r, r < 1 → c.st.team r = false) ∧
        (∀ r, r < 1 → c.st.agFree r = false)) := by
  have hchain :=
    Relation.ReflTransGen.head (RelStep.addLast (relInit 1) 0 (by decide) rfl rfl)
      (Relation.ReflTransGen.head (RelStep.delDoneStep _ 0 (by decide) rfl)
        (Relation.ReflTransGen.head (RelStep.delTeamStep _ 0 0 (by decide) (by decide) rfl)
          (Relation.ReflTransGen.head (RelStep.delTeamFinish _ 0 (by decide) rfl)
            (Relation.ReflTransGen.head (RelStep.setFreeStep _ 0 0 (by decide) (by decide) rfl)
              (Relation.ReflTransGen.head (RelStep.setFreeFinish _ 0 (by decide) rfl)
                (Relation.ReflTransGen.head (RelStep.delOwnLastStep _ 0 (by decide) rfl)
                  Relation.ReflTransGen.refl))))))
  exact ⟨_, hchain, by decide,
    release_drains_namespace 1 _ (by decide) hchain (by decide)⟩

end TorchUCC
